import Mathlib

/-!
# Verification of the seekable-iterator library

A shallow embedding of the core of the `seekable-iterator` Rust crate:

* `TestIter` embeds `src/test_iter.rs`, the crate's canonical component iterator:
  a cursor over a strictly sorted `&[u8]` slice, implementing the
  `CursorLendingIterator`, `Seekable` and `ItemToKey` contracts.  Keys are
  modelled as `Nat` (only the order on `u8` is used by the code, never
  arithmetic, so `Nat` carries the same order structure).
* `MergingIter` embeds `src/merging_iter.rs`, the k-way merging iterator.
* Further definitions embed the buffer-pool code of `src/pooled_iter.rs` and
  `src/threadsafe_pooled_iter.rs`.

Theorems about these definitions settle the specification claims.
-/

namespace SeekableIter

/-- Embeds `TestIter` (src/test_iter.rs): a slice of data plus
`cursor: Option<usize>`; `none` is the invalid phantom position. -/
structure TestIter where
  data   : List Nat
  cursor : Option Nat
deriving Repr, DecidableEq

namespace TestIter

/-- `TestIter::valid`: the cursor sits on a real entry. -/
def valid (t : TestIter) : Bool := t.cursor.isSome

/-- `TestIter::current`: `Some(&self.data[self.cursor?])`. -/
def current (t : TestIter) : Option Nat :=
  t.cursor.bind fun i => t.data[i]?

/-- `TestIter::next` (state part): `next_idx = cursor+1` (or `0` from invalid);
cursor becomes `Some(next_idx)` when in bounds, else `None`.
The Rust method returns `self.current()` afterwards, modelled separately. -/
def next (t : TestIter) : TestIter :=
  let nextIdx := match t.cursor with
    | some i => i + 1
    | none   => 0
  { t with cursor := if nextIdx < t.data.length then some nextIdx else none }

/-- `TestIter::prev` (state part): from index `i` (or `len` when invalid),
`checked_sub(1)`: cursor becomes `None` at `0`, else moves one back. -/
def prev (t : TestIter) : TestIter :=
  let cur := match t.cursor with
    | some i => i
    | none   => t.data.length
  { t with cursor := if cur = 0 then none else some (cur - 1) }

/-- `Seekable::reset` for `TestIter`: cursor to `None`. -/
def reset (t : TestIter) : TestIter := { t with cursor := none }

/-- `Seekable::seek` for `TestIter`: `binary_search(min_bound)` on the strictly
sorted slice positions at the first index whose key is `≥ min_bound`
(`Ok(found)` is that index when the key is present, `Err(following_idx)` is the
insertion point otherwise); the cursor is that index when in bounds, else `None`.
`List.findIdx` computes exactly this index for strictly sorted data. -/
def seek (t : TestIter) (minBound : Nat) : TestIter :=
  let j := t.data.findIdx fun x => minBound ≤ x
  { t with cursor := if j < t.data.length then some j else none }

/-- `Seekable::seek_before` for `TestIter`: `binary_search(bound)` yields the
first index with key `≥ bound` (in both the `Ok` and `Err` cases, for strictly
sorted data), then `checked_sub(1)`. -/
def seekBefore (t : TestIter) (bound : Nat) : TestIter :=
  let j := t.data.findIdx fun x => bound ≤ x
  { t with cursor := if j = 0 then none else some (j - 1) }

/-- `Seekable::seek_to_first` for `TestIter`: `reset` then `next`. -/
def seekToFirst (t : TestIter) : TestIter := t.reset.next

/-- `Seekable::seek_to_last` for `TestIter`: `reset` then `prev`. -/
def seekToLast (t : TestIter) : TestIter := t.reset.prev

/-- The strict-sortedness check of `TestIter::new`
(`data.is_sorted() && data.windows(2).all(|w| w[0] != w[1])`):
adjacent entries strictly increase. -/
def strictlySorted : List Nat → Bool
  | []           => true
  | [_]          => true
  | a :: b :: l  => a < b && strictlySorted (b :: l)

/-- `TestIter::new`: checks strict sortedness, starts at the invalid position. -/
def new (data : List Nat) : Option TestIter :=
  if strictlySorted data then some ⟨data, none⟩ else none

/-- The data of a `TestIter` as obtained from `TestIter::new`: sorted without
duplicates, i.e. strictly sorted. -/
def WFData (t : TestIter) : Prop := t.data.Sorted (· < ·)

/-- The remaining entries at or after the cursor (all entries of an
invalid-position iterator count as consumed/none here). -/
def suffix (t : TestIter) : List Nat :=
  match t.cursor with
  | some c => t.data.drop c
  | none   => []

end TestIter


/-! ## The merging iterator (src/merging_iter.rs) -/

/-- Iteration direction of the merging iterator. -/
inductive Direction
  | Forwards
  | Backwards
deriving Repr, DecidableEq

/-- Embeds `MergingIter` (src/merging_iter.rs).  The Rust field `current_iter`
is `Option<NonZero<usize>>` storing index + 1 purely as a niche optimization;
we store the index itself. -/
structure MergingIter where
  iterators   : List TestIter
  currentIter : Option Nat
  direction   : Direction
deriving Repr, DecidableEq

/-- `usize::MAX` on the 64-bit targets the crate is built for. -/
def USIZE_MAX : Nat := 2 ^ 64 - 1

/-- Pair every element with its index, starting at `n` (Rust `.iter().enumerate()`). -/
def enumFrom : Nat → List TestIter → List (Nat × TestIter)
  | _, []      => []
  | n, t :: ts => (n, t) :: enumFrom (n + 1) ts

/-- The scanning loop shared by `find_smallest_iter` and `find_largest_iter`:
visit `(idx, iter)` pairs in order, keep the current best `(idx, key)` and
replace it only when `better` holds strictly of the visited key. -/
def scanBest (better : Nat → Nat → Bool) :
    List (Nat × TestIter) → Option (Nat × Nat) → Option (Nat × Nat)
  | [], best => best
  | (idx, t) :: rest, best =>
    let best' := match t.current with
      | some k => match best with
        | some (_, bk) => if better k bk then some (idx, k) else best
        | none         => some (idx, k)
      | none => best
    scanBest better rest best'

/-- Apply `f` to the element at index `j`, leave the others unchanged. -/
def modifyAt (f : TestIter → TestIter) : Nat → List TestIter → List TestIter
  | _, []           => []
  | 0, t :: ts      => f t :: ts
  | n + 1, t :: ts  => t :: modifyAt f n ts

/-- Apply `f` to every element except the one at index `j`
(the two `split_at_mut` loops of the direction-switch functions). -/
def mapOthers (f : TestIter → TestIter) (j : Nat) (l : List TestIter) : List TestIter :=
  (enumFrom 0 l).map fun p => if p.1 = j then p.2 else f p.2

namespace MergingIter

/-- `MergingIter::new` (src/merging_iter.rs:113-127): asserts the iterator count
is not `usize::MAX` (modelled as `none` = panic), starts invalid and `Forwards`. -/
def new (iterators : List TestIter) : Option MergingIter :=
  if iterators.length = USIZE_MAX then none
  else some { iterators := iterators, currentIter := none, direction := .Forwards }

/-- `MergingIter::valid`: `current_iter.is_some()`. -/
def valid (m : MergingIter) : Bool := m.currentIter.isSome

/-- `MergingIter::current`: `get_current_iter_ref()?.current()`. -/
def current (m : MergingIter) : Option Nat :=
  (m.currentIter.bind fun j => m.iterators[j]?).bind TestIter.current

/-- `MergingIter::find_smallest_iter` (src/merging_iter.rs:150-174): scan all
component iterators in ascending index order, keeping the first one whose
current key is strictly smaller than the best so far (`cmp == Less`). -/
def findSmallestIter (m : MergingIter) : MergingIter :=
  { m with currentIter := (scanBest (· < ·) (enumFrom 0 m.iterators) none).map Prod.fst }

/-- `MergingIter::find_largest_iter` (src/merging_iter.rs:178-202): scan all
component iterators in descending index order (`enumerate().rev()`), keeping
the first one whose current key is strictly greater (`cmp == Greater`). -/
def findLargestIter (m : MergingIter) : MergingIter :=
  { m with currentIter :=
      (scanBest (· > ·) (enumFrom 0 m.iterators).reverse none).map Prod.fst }

/-- The per-iterator body of the first halves of `switch_to_forwards`:
`seek(current_key)`, then one extra `next()` when the landed key compares
equal to `current_key`. -/
def catchUpForwards (ck : Nat) (t : TestIter) : TestIter :=
  let t1 := t.seek ck
  match t1.current with
  | some k => if ck = k then t1.next else t1
  | none   => t1

/-- `MergingIter::switch_to_forwards` (src/merging_iter.rs:207-245): read the
current iterator's key (the source `unwrap`s it — panics — when the current
iterator is invalid, which the struct invariant rules out; the fallback branch
here only sets the direction and is proved unreachable on reachable states),
move every other iterator strictly ahead of it, set direction `Forwards`. -/
def switchToForwards (m : MergingIter) (j : Nat) : MergingIter :=
  match (m.iterators[j]?).bind TestIter.current with
  | some ck =>
    { m with iterators := mapOthers (catchUpForwards ck) j m.iterators,
             direction := .Forwards }
  | none => { m with direction := .Forwards }

/-- `MergingIter::switch_to_backwards` (src/merging_iter.rs:250-274): mirror of
`switchToForwards` using `seek_before(current_key)`, which by definition lands
strictly behind, and setting direction `Backwards`. -/
def switchToBackwards (m : MergingIter) (j : Nat) : MergingIter :=
  match (m.iterators[j]?).bind TestIter.current with
  | some ck =>
    { m with iterators := mapOthers (fun t => t.seekBefore ck) j m.iterators,
             direction := .Backwards }
  | none => { m with direction := .Backwards }

/-- `MergingIter::next` (src/merging_iter.rs:296-324).  Returns the yielded
entry (`self.current()` of the new state) together with the new state. -/
def next (m : MergingIter) : Option Nat × MergingIter :=
  match m.currentIter with
  | some j =>
    let m1 := match m.direction with
      | .Backwards => m.switchToForwards j
      | .Forwards  => m
    let m2 := { m1 with iterators := modifyAt TestIter.next j m1.iterators }
    let m3 := m2.findSmallestIter
    (m3.current, m3)
  | none =>
    let m1 := { m with iterators := m.iterators.map TestIter.next }
    let m2 := m1.findSmallestIter
    let m3 := { m2 with direction := .Forwards }
    (m3.current, m3)

/-- `MergingIter::prev` (src/merging_iter.rs:338-365), mirror of `next`. -/
def prev (m : MergingIter) : Option Nat × MergingIter :=
  match m.currentIter with
  | some j =>
    let m1 := match m.direction with
      | .Forwards  => m.switchToBackwards j
      | .Backwards => m
    let m2 := { m1 with iterators := modifyAt TestIter.prev j m1.iterators }
    let m3 := m2.findLargestIter
    (m3.current, m3)
  | none =>
    let m1 := { m with iterators := m.iterators.map TestIter.prev }
    let m2 := m1.findLargestIter
    let m3 := { m2 with direction := .Backwards }
    (m3.current, m3)

/-- `MergingIter::reset` (src/merging_iter.rs:374-380). -/
def reset (m : MergingIter) : MergingIter :=
  { iterators   := m.iterators.map TestIter.reset,
    currentIter := none,
    direction   := .Forwards }

/-- `MergingIter::seek` (src/merging_iter.rs:382-389). -/
def seek (m : MergingIter) (minBound : Nat) : MergingIter :=
  let m1 := { m with iterators := m.iterators.map fun t => TestIter.seek t minBound }
  let m2 := m1.findSmallestIter
  { m2 with direction := .Forwards }

/-- `MergingIter::seek_before` (src/merging_iter.rs:403-410). -/
def seekBefore (m : MergingIter) (bound : Nat) : MergingIter :=
  let m1 := { m with iterators := m.iterators.map fun t => TestIter.seekBefore t bound }
  let m2 := m1.findLargestIter
  { m2 with direction := .Backwards }

/-- `MergingIter::seek_to_first` (src/merging_iter.rs:412-419). -/
def seekToFirst (m : MergingIter) : MergingIter :=
  let m1 := { m with iterators := m.iterators.map TestIter.seekToFirst }
  let m2 := m1.findSmallestIter
  { m2 with direction := .Forwards }

/-- `MergingIter::seek_to_last` (src/merging_iter.rs:427-434). -/
def seekToLast (m : MergingIter) : MergingIter :=
  let m1 := { m with iterators := m.iterators.map TestIter.seekToLast }
  let m2 := m1.findLargestIter
  { m2 with direction := .Backwards }

/-- All entries of the merged collection (the concatenation of the component
iterators' data). -/
def allKeys (m : MergingIter) : List Nat :=
  (m.iterators.map TestIter.data).flatten

end MergingIter

/-! ## Characterizing the extremal-selection scan -/

/-- The `(index, current key)` record of a valid component iterator. -/
def entryKeyed (p : Nat × TestIter) : Option (Nat × Nat) :=
  p.2.current.map fun k => (p.1, k)

/-- The `(index, key)` pairs of the valid component iterators, indices from `n`. -/
def validEntries (n : Nat) (l : List TestIter) : List (Nat × Nat) :=
  (enumFrom n l).filterMap entryKeyed

/-- `scanBest` restricted to the `(index, key)` pairs it actually inspects. -/
def pick (better : Nat → Nat → Bool) :
    Option (Nat × Nat) → List (Nat × Nat) → Option (Nat × Nat)
  | acc, [] => acc
  | acc, (i, k) :: rest =>
    pick better
      (match acc with
       | none => some (i, k)
       | some (i0, k0) => if better k k0 then some (i, k) else some (i0, k0))
      rest

/-- Merge two scan results: the second wins only if strictly better. -/
def combineBy (better : Nat → Nat → Bool) :
    Option (Nat × Nat) → Option (Nat × Nat) → Option (Nat × Nat)
  | none, r => r
  | some a, none => some a
  | some a, some b => if better b.2 a.2 then some b else some a

/-- Structural (right-fold) version of the extremal scan. -/
def bestBy (better : Nat → Nat → Bool) : List (Nat × Nat) → Option (Nat × Nat)
  | [] => none
  | e :: rest => combineBy better (some e) (bestBy better rest)

/-! ## Driving the merging iterator -/

namespace MergingIter

/-- The component iterators as they stand right after the advancing phase of
`next()` (before `find_smallest_iter`): with a selected component, only it is
advanced; from the invalid state every component is advanced. -/
def advanced (m : MergingIter) : List TestIter :=
  match m.currentIter with
  | some j => modifyAt TestIter.next j m.iterators
  | none   => m.iterators.map TestIter.next

/-- All entries a forward sweep has yet to yield: the concatenated remaining
suffixes after the advancing phase of the next `next()` call. -/
def pending (m : MergingIter) : List Nat :=
  (m.advanced.map TestIter.suffix).flatten

/-- Key of component `i`, when that component exists and is valid. -/
def compCurrent (m : MergingIter) (i : Nat) : Option Nat :=
  (m.iterators[i]?).bind TestIter.current

/-- Mirror of `advanced` for `prev()`: the component iterators right after the
retreating phase (before `find_largest_iter`). -/
def advancedBwd (m : MergingIter) : List TestIter :=
  match m.currentIter with
  | some j => modifyAt TestIter.prev j m.iterators
  | none   => m.iterators.map TestIter.prev

end MergingIter

/-- Call `next()` repeatedly, `n` times, collecting the yielded values. -/
def emitNexts : Nat → MergingIter → List (Option Nat) × MergingIter
  | 0, m => ([], m)
  | n + 1, m =>
    let o := m.next
    let rest := emitNexts n o.2
    (o.1 :: rest.1, rest.2)

/-- The public mutating operations of the merging iterator. -/
inductive MOp
  | opNext
  | opPrev
  | opSeek (k : Nat)
  | opSeekBefore (k : Nat)
  | opSeekToFirst
  | opSeekToLast
  | opReset
deriving Repr, DecidableEq

/-- Apply one public mutating operation (discarding the yielded value of
`next`/`prev`). -/
def MergingIter.applyOp : MOp → MergingIter → MergingIter
  | .opNext, m => (m.next).2
  | .opPrev, m => (m.prev).2
  | .opSeek k, m => m.seek k
  | .opSeekBefore k, m => m.seekBefore k
  | .opSeekToFirst, m => m.seekToFirst
  | .opSeekToLast, m => m.seekToLast
  | .opReset, m => m.reset

/-- A merging iterator freshly built by `MergingIter::new` over component
iterators freshly built by `TestIter::new` (all at the invalid position). -/
def initMerging (datas : List (List Nat)) : MergingIter :=
  { iterators   := datas.map fun d => { data := d, cursor := none },
    currentIter := none,
    direction   := .Forwards }

/-- States reachable from a fresh merging iterator through the public
mutating operations. -/
inductive Reach (datas : List (List Nat)) : MergingIter → Prop
  | init : Reach datas (initMerging datas)
  | step (op : MOp) {m : MergingIter} : Reach datas m → Reach datas (m.applyOp op)

/-- Every valid cursor is in bounds. -/
def cursorsInBounds (l : List TestIter) : Prop :=
  ∀ t ∈ l, ∀ ci, t.cursor = some ci → ci < t.data.length

/-- The entries a component iterator has gone past in the forwards direction:
the strict prefix before the cursor, or everything once it has exhausted. -/
def TestIter.passedFwd (t : TestIter) : List Nat :=
  match t.cursor with
  | some c => t.data.take c
  | none   => t.data

/-- Mirror of `passedFwd` for the backwards direction: the strict suffix after
the cursor, or everything once the iterator has exhausted backwards. -/
def TestIter.passedBwd (t : TestIter) : List Nat :=
  match t.cursor with
  | some c => t.data.drop (c + 1)
  | none   => t.data

/-- The structural invariant of the merging iterator (the documented contract
of the `current_iter` and `direction` fields, src/merging_iter.rs:78-91,
strengthened with the traversal-progress facts that make it inductive): when no
component is selected every component is invalid; when component `j` is
selected it is valid at some key `k` and — per direction — every valid
component sits non-strictly on the far side of `k`, every entry a component
has gone past lies non-strictly on the near side of `k`, and the entries of
exhausted components lie entirely on the near side. -/
def MergingIter.Inv (m : MergingIter) : Prop :=
  cursorsInBounds m.iterators ∧
  match m.currentIter with
  | none => ∀ t ∈ m.iterators, t.cursor = none
  | some j => ∃ tj k, m.iterators[j]? = some tj ∧ tj.current = some k ∧
    match m.direction with
    | .Forwards => ∀ t ∈ m.iterators,
        (∀ ki, t.current = some ki → k ≤ ki) ∧ (∀ x ∈ t.passedFwd, x ≤ k)
    | .Backwards => ∀ t ∈ m.iterators,
        (∀ ki, t.current = some ki → ki ≤ k) ∧ (∀ x ∈ t.passedBwd, k ≤ x)

/-- A merging iterator with strictly sorted component data satisfying the
structural invariant. -/
def MergingIter.Good (m : MergingIter) : Prop :=
  (∀ t ∈ m.iterators, t.WFData) ∧ m.Inv

/-- `k` sits on the near side and `ki` on the far side of the direction of
travel. -/
def dirAfter : Direction → Nat → Nat → Prop
  | .Forwards, k, ki  => k ≤ ki
  | .Backwards, k, ki => ki ≤ k

/-- The documented contract of the `current_iter` field
(src/merging_iter.rs:72-92): `None` exactly when every component iterator is
invalid; otherwise the selected component is valid and every valid component's
current key lies non-strictly on the far side of the selected key in the
iteration direction. -/
def MergingIter.StructInv (m : MergingIter) : Prop :=
  (m.currentIter = none ↔ ∀ t ∈ m.iterators, t.valid = false)
  ∧ ∀ j, m.currentIter = some j →
      ∃ tj k, m.iterators[j]? = some tj ∧ tj.valid = true ∧ tj.current = some k ∧
        ∀ t ∈ m.iterators, ∀ ki, t.current = some ki → dirAfter m.direction k ki

/-- A small concrete merging iterator used to instantiate theorems with
hypotheses at concrete inputs. -/
def sampleMerging : MergingIter :=
  { iterators   := [TestIter.mk [1, 3] none, TestIter.mk [2] none],
    currentIter := none,
    direction   := .Forwards }

/-! ## The buffer pools (src/pooled_iter.rs, src/threadsafe_pooled_iter.rs) -/

/-- The `OutOfBuffers` error (src/pooled.rs). -/
inductive OutOfBuffers
  | outOfBuffers
deriving Repr, DecidableEq

/-- One `next()` call on the slot source
`iter::repeat_with(|| Some(OwnedItem::default()))` used by `PooledIter::new`
and `ThreadsafePooledIter::new`: it always yields another freshly
default-constructed free slot and never yields `None`.  The owned buffer type
is modelled as `Unit` (any `Default` type behaves the same here). -/
def repeatWithNext : Option (Option Unit) := some (some ())

/-- The `pool.extend(iter::repeat_with(..))` loop of `PooledIter::new`
(src/pooled_iter.rs:50-57) and `ThreadsafePooledIter::new`
(src/threadsafe_pooled_iter.rs:35-45), run for at most `fuel` iterations:
`extend` pushes elements until the source iterator yields `None`.  Returns
`some` of the extended pool if the loop finishes within `fuel` iterations and
`none` while it is still running. -/
def extendLoop : Nat → List (Option Unit) → Option (List (Option Unit))
  | 0, _ => none
  | fuel + 1, acc =>
    match repeatWithNext with
    | some slot => extendLoop fuel (acc ++ [slot])
    | none      => some acc

/-- `available_buffers` (src/pooled_iter.rs:99-111,
src/threadsafe_pooled_iter.rs:84-90): sums `1` for every slot that
`is_none()`. -/
def availableBuffers {α : Type} (pool : List (Option α)) : Nat :=
  (pool.map fun slot => if slot.isNone then 1 else 0).sum

/-- Pool-side effects of releasing a buffer. -/
inductive PoolEvent
  | lock
  | writeBack (slot : Nat)
  | notifyOne
  | unlock
deriving Repr, DecidableEq

/-- The sequence of pool-side effects performed by `ThreadsafePoolItem::drop`
(src/threadsafe_pooled_iter.rs:308-324): acquire the pool mutex
(`self.pool.pool_contents()`), write the held buffer back into slot
`pool_slot`, release the mutex as the guard goes out of scope.  The body
contains no operation on the pool's condition variable. -/
def threadsafePoolItemDropEvents (poolSlot : Nat) : List PoolEvent :=
  [.lock, .writeBack poolSlot, .unlock]

/-- The slot-table effect of `ThreadsafePoolItem::drop`
(src/threadsafe_pooled_iter.rs:317-322): the held buffer is written back into
slot `pool_slot`, making that slot free (`Some`) again. -/
def poolItemDropWriteBack {α : Type} (pool : List (Option α)) (poolSlot : Nat)
    (buf : α) : List (Option α) :=
  pool.set poolSlot (some buf)

/-- The result of `Mutex::lock`: `Err(PoisonError)` when the mutex is
poisoned (a thread panicked while holding it), `Ok(guard)` otherwise. -/
def lockResult {α : Type} (poisoned : Bool) (contents : α) : Except Unit α :=
  if poisoned then .error () else .ok contents

/-- `Result::unwrap`: the value on `Ok`, a panic (modelled `none`) on `Err`. -/
def unwrapOrPanic {α : Type} : Except Unit α → Option α
  | .ok a    => some a
  | .error _ => none

/-- `ThreadsafePool::pool_contents` (src/threadsafe_pooled_iter.rs:203-208):
`self.0.0.lock().unwrap()`.  Returns the guarded slot table, `none` for a
panic.  The same `lock-result.unwrap()` shape guards every pool operation
(`try_fill_buffer`, `fill_buffer_fallback` via `Condvar::wait(..).unwrap()`,
`buffer_pool_size`, `available_buffers`, and `ThreadsafePoolItem::drop`). -/
def pool_contents {α : Type} (poisoned : Bool) (pool : List (Option α)) :
    Option (List (Option α)) :=
  unwrapOrPanic (lockResult poisoned pool)

/-- An item checked out of the single-threaded pool: the owned copy of the
yielded entry plus the index of the slot it came from (`PoolItem`,
src/pooled_iter.rs:282-286, minus the pool back-reference). -/
structure PoolItem where
  item     : Nat
  poolSlot : Nat
deriving Repr, DecidableEq

/-- The scan inside `Pool::try_fill_buffer` (src/pooled_iter.rs:243-254):
`find_map` over the slots in index order; `slot.take()` succeeds on the first
free (`Some`) slot, which becomes checked out (`None`), and the borrowed item
is cloned into its buffer. -/
def tryFillBufferFrom (item : Nat) :
    Nat → List (Option Nat) → Option (PoolItem × List (Option Nat))
  | _, [] => none
  | idx, none :: rest =>
    (tryFillBufferFrom item (idx + 1) rest).map fun r => (r.1, none :: r.2)
  | idx, some _ :: rest => some ({ item := item, poolSlot := idx }, none :: rest)

/-- `Pool::try_fill_buffer` (src/pooled_iter.rs:228-255): take the first free
slot, returning the pool item and the updated slot table, or `none` when
every slot is checked out. -/
def tryFillBuffer (item : Nat) (pool : List (Option Nat)) :
    Option (PoolItem × List (Option Nat)) :=
  tryFillBufferFrom item 0 pool

/-- Embeds the single-threaded `PooledIter` (src/pooled_iter.rs:36-39) over a
`TestIter` inner iterator, with owned items of key type: the inner iterator
plus the pool's slot table.  A slot holding `some buf` is free; a slot holding
`none` is checked out. -/
structure PooledIter where
  iter : TestIter
  pool : List (Option Nat)
deriving Repr, DecidableEq

/-- `PooledIter::try_next` (src/pooled_iter.rs:76-86): `self.iter.next()`
first; only if it yields an item is a pool buffer requested, and when none is
free the call returns `Err(OutOfBuffers)` with the yielded item discarded. -/
def PooledIter.tryNext (p : PooledIter) :
    Except OutOfBuffers (Option PoolItem) × PooledIter :=
  let iter2 := p.iter.next
  match iter2.current with
  | some item =>
    match tryFillBuffer item p.pool with
    | some r => (.ok (some r.1), ⟨iter2, r.2⟩)
    | none   => (.error .outOfBuffers, ⟨iter2, p.pool⟩)
  | none => (.ok none, ⟨iter2, p.pool⟩)

/-- `PooledIter::try_prev` (src/pooled_iter.rs:159-169), mirror of
`tryNext` using the inner iterator's `prev`. -/
def PooledIter.tryPrev (p : PooledIter) :
    Except OutOfBuffers (Option PoolItem) × PooledIter :=
  let iter2 := p.iter.prev
  match iter2.current with
  | some item =>
    match tryFillBuffer item p.pool with
    | some r => (.ok (some r.1), ⟨iter2, r.2⟩)
    | none   => (.error .outOfBuffers, ⟨iter2, p.pool⟩)
  | none => (.ok none, ⟨iter2, p.pool⟩)

/-- Embeds the cross-thread `ThreadsafePooledIter`
(src/threadsafe_pooled_iter.rs:27-30) over a `TestIter` inner iterator: the
inner iterator plus the mutex-guarded slot table (lock acquisition on an
unpoisoned mutex returns the table itself). -/
structure ThreadsafePooledIter where
  iter : TestIter
  pool : List (Option Nat)
deriving Repr, DecidableEq

/-- `ThreadsafePooledIter::try_next` (src/threadsafe_pooled_iter.rs:68-78)
with an unpoisoned mutex: `self.iter.next()` first, then the identical
first-free-slot scan of `ThreadsafePool::try_fill_buffer`
(src/threadsafe_pooled_iter.rs:210-234) under the lock. -/
def ThreadsafePooledIter.tryNext (p : ThreadsafePooledIter) :
    Except OutOfBuffers (Option PoolItem) × ThreadsafePooledIter :=
  let iter2 := p.iter.next
  match iter2.current with
  | some item =>
    match tryFillBuffer item p.pool with
    | some r => (.ok (some r.1), ⟨iter2, r.2⟩)
    | none   => (.error .outOfBuffers, ⟨iter2, p.pool⟩)
  | none => (.ok none, ⟨iter2, p.pool⟩)

/-- `ThreadsafePooledIter::try_prev` (src/threadsafe_pooled_iter.rs:143-153)
with an unpoisoned mutex, mirror of its `tryNext`. -/
def ThreadsafePooledIter.tryPrev (p : ThreadsafePooledIter) :
    Except OutOfBuffers (Option PoolItem) × ThreadsafePooledIter :=
  let iter2 := p.iter.prev
  match iter2.current with
  | some item =>
    match tryFillBuffer item p.pool with
    | some r => (.ok (some r.1), ⟨iter2, r.2⟩)
    | none   => (.error .outOfBuffers, ⟨iter2, p.pool⟩)
  | none => (.ok none, ⟨iter2, p.pool⟩)

/-! ## Theorems -/

theorem strictlySorted_iff_sorted (l : List Nat) :
    TestIter.strictlySorted l = true ↔ l.Sorted (· < ·) := by
  induction l with
  | nil => simp [TestIter.strictlySorted]
  | cons a l ih =>
    cases l with
    | nil => simp [TestIter.strictlySorted]
    | cons b l =>
      rw [TestIter.strictlySorted, Bool.and_eq_true, ih]
      constructor
      · rintro ⟨hab, hs⟩
        refine List.sorted_cons.2 ⟨?_, hs⟩
        intro x hx
        rcases List.mem_cons.1 hx with rfl | hx
        · exact of_decide_eq_true hab
        · exact lt_trans (of_decide_eq_true hab)
            ((List.sorted_cons.1 hs).1 x hx)
      · intro h
        have h1 := List.sorted_cons.1 h
        exact ⟨by simpa using h1.1 b (List.mem_cons_self b l), h1.2⟩


namespace TestIter

@[simp] theorem data_next (t : TestIter) : t.next.data = t.data := rfl
@[simp] theorem data_prev (t : TestIter) : t.prev.data = t.data := rfl
@[simp] theorem data_reset (t : TestIter) : t.reset.data = t.data := rfl
@[simp] theorem data_seek (t : TestIter) (k : Nat) : (t.seek k).data = t.data := rfl
@[simp] theorem data_seekBefore (t : TestIter) (k : Nat) :
    (t.seekBefore k).data = t.data := rfl
@[simp] theorem data_seekToFirst (t : TestIter) : t.seekToFirst.data = t.data := rfl
@[simp] theorem data_seekToLast (t : TestIter) : t.seekToLast.data = t.data := rfl

@[simp] theorem cursor_reset (t : TestIter) : t.reset.cursor = none := rfl

/-- `current` is the head of the remaining suffix, for any cursor state. -/
theorem current_eq_head_suffix (t : TestIter) : t.current = t.suffix.head? := by
  cases h : t.cursor with
  | none => simp [current, suffix, h]
  | some c =>
    simp only [current, suffix, h, Option.bind_some]
    rw [List.head?_drop]
    simp

theorem current_of_cursor_some {t : TestIter} {c : Nat} (h : t.cursor = some c) :
    t.current = t.data[c]? := by simp [current, h]

theorem current_of_cursor_none {t : TestIter} (h : t.cursor = none) :
    t.current = none := by simp [current, h]

/-- After `next`, the suffix loses exactly the old current entry
(when the iterator was valid and in bounds). -/
theorem suffix_next_of_current {t : TestIter} {k : Nat} (h : t.current = some k) :
    t.suffix = k :: t.next.suffix := by
  cases hc : t.cursor with
  | none => rw [current_of_cursor_none hc] at h; cases h
  | some c =>
    rw [current_of_cursor_some hc] at h
    have hlt : c < t.data.length := by
      by_contra hge
      rw [List.getElem?_eq_none (le_of_not_lt hge)] at h
      cases h
    simp only [suffix, next, hc]
    by_cases hlt1 : c + 1 < t.data.length
    · simp only [hlt1, if_pos]
      rw [List.drop_eq_getElem_cons hlt]
      simp only [List.getElem?_eq_getElem hlt] at h
      simp [Option.some.injEq] at h
      simp [h]
    · simp only [hlt1, if_neg, if_false]
      have : t.data.length = c + 1 := by omega
      rw [List.drop_eq_getElem_cons hlt]
      simp only [List.getElem?_eq_getElem hlt] at h
      simp only [Option.some.injEq] at h
      have hdrop : t.data.drop (c + 1) = [] := by
        apply List.drop_eq_nil_of_le
        omega
      simp [h, hdrop]

end TestIter

theorem scanBest_eq_pick (better : Nat → Nat → Bool) :
    ∀ (ps : List (Nat × TestIter)) (acc : Option (Nat × Nat)),
      scanBest better ps acc = pick better acc (ps.filterMap entryKeyed) := by
  intro ps
  induction ps with
  | nil => intro acc; rfl
  | cons p rest ih =>
    intro acc
    obtain ⟨i, t⟩ := p
    cases hc : t.current with
    | none =>
      simp only [scanBest, hc, List.filterMap_cons, entryKeyed, Option.map_none]
      exact ih acc
    | some k =>
      cases acc with
      | none =>
        simp only [scanBest, hc, List.filterMap_cons, entryKeyed, Option.map_some]
        exact ih _
      | some a =>
        obtain ⟨i0, k0⟩ := a
        simp only [scanBest, hc, List.filterMap_cons, entryKeyed, Option.map_some]
        by_cases hb : better k k0
        · simp only [hb, if_true, pick]
          rw [ih]
        · simp only [hb, if_false, pick]
          rw [ih]

theorem combineBy_assoc_lt (a b c : Option (Nat × Nat)) :
    combineBy (· < ·) (combineBy (· < ·) a b) c
      = combineBy (· < ·) a (combineBy (· < ·) b c) := by
  rcases a with _ | ⟨ai, ak⟩
  · rfl
  rcases b with _ | ⟨bi, bk⟩
  · rcases c with _ | ⟨ci, ck⟩ <;> rfl
  rcases c with _ | ⟨ci, ck⟩
  · by_cases h1 : bk < ak <;> simp [combineBy, h1]
  · by_cases h1 : bk < ak <;> by_cases h2 : ck < bk <;> by_cases h3 : ck < ak <;>
      simp [combineBy, h1, h2, h3]
    all_goals (exfalso; omega)

theorem combineBy_assoc_gt (a b c : Option (Nat × Nat)) :
    combineBy (· > ·) (combineBy (· > ·) a b) c
      = combineBy (· > ·) a (combineBy (· > ·) b c) := by
  rcases a with _ | ⟨ai, ak⟩
  · rfl
  rcases b with _ | ⟨bi, bk⟩
  · rcases c with _ | ⟨ci, ck⟩ <;> rfl
  rcases c with _ | ⟨ci, ck⟩
  · by_cases h1 : bk > ak <;> simp [combineBy, h1]
  · by_cases h1 : bk > ak <;> by_cases h2 : ck > bk <;> by_cases h3 : ck > ak <;>
      simp [combineBy, h1, h2, h3]
    all_goals (exfalso; omega)

theorem pick_eq_bestBy_lt :
    ∀ (es : List (Nat × Nat)) (acc : Option (Nat × Nat)),
      pick (· < ·) acc es = combineBy (· < ·) acc (bestBy (· < ·) es) := by
  intro es
  induction es with
  | nil => intro acc; cases acc <;> rfl
  | cons e rest ih =>
    intro acc
    obtain ⟨i, k⟩ := e
    have hstep : pick (· < ·) acc ((i, k) :: rest)
        = pick (· < ·) (combineBy (· < ·) acc (some (i, k))) rest := by
      cases acc with
      | none => rfl
      | some a => obtain ⟨i0, k0⟩ := a; simp only [pick, combineBy]
    rw [hstep, ih, bestBy, ← combineBy_assoc_lt]

theorem pick_eq_bestBy_gt :
    ∀ (es : List (Nat × Nat)) (acc : Option (Nat × Nat)),
      pick (· > ·) acc es = combineBy (· > ·) acc (bestBy (· > ·) es) := by
  intro es
  induction es with
  | nil => intro acc; cases acc <;> rfl
  | cons e rest ih =>
    intro acc
    obtain ⟨i, k⟩ := e
    have hstep : pick (· > ·) acc ((i, k) :: rest)
        = pick (· > ·) (combineBy (· > ·) acc (some (i, k))) rest := by
      cases acc with
      | none => rfl
      | some a => obtain ⟨i0, k0⟩ := a; simp only [pick, combineBy]
    rw [hstep, ih, bestBy, ← combineBy_assoc_gt]

theorem bestBy_lt_eq_none_iff (es : List (Nat × Nat)) :
    bestBy (· < ·) es = none ↔ es = [] := by
  cases es with
  | nil => simp [bestBy]
  | cons e rest =>
    simp only [bestBy]
    constructor
    · intro h
      exfalso
      cases hb : bestBy (· < ·) rest with
      | none => rw [hb] at h; simp [combineBy] at h
      | some b => rw [hb] at h; simp only [combineBy] at h; split at h <;> simp at h
    · intro h; cases h

theorem bestBy_gt_eq_none_iff (es : List (Nat × Nat)) :
    bestBy (· > ·) es = none ↔ es = [] := by
  cases es with
  | nil => simp [bestBy]
  | cons e rest =>
    simp only [bestBy]
    constructor
    · intro h
      exfalso
      cases hb : bestBy (· > ·) rest with
      | none => rw [hb] at h; simp [combineBy] at h
      | some b => rw [hb] at h; simp only [combineBy] at h; split at h <;> simp at h
    · intro h; cases h

/-- The scan result is the first entry holding the minimum key: everything
before it is strictly larger, everything after it no smaller. -/
theorem bestBy_lt_spec {es : List (Nat × Nat)} {j : Nat} {k : Nat}
    (h : bestBy (· < ·) es = some (j, k)) :
    ∃ es1 es2, es = es1 ++ (j, k) :: es2
      ∧ (∀ e ∈ es1, k < e.2) ∧ (∀ e ∈ es2, k ≤ e.2) := by
  induction es generalizing j k with
  | nil => cases h
  | cons e rest ih =>
    obtain ⟨ei, ek⟩ := e
    rw [bestBy] at h
    cases hb : bestBy (· < ·) rest with
    | none =>
      rw [hb] at h
      have hrest : rest = [] := (bestBy_lt_eq_none_iff rest).1 hb
      simp only [combineBy, Option.some.injEq] at h
      refine ⟨[], rest, ?_, by simp, by simp [hrest]⟩
      rw [← h]
      rfl
    | some b =>
      obtain ⟨bi, bk⟩ := b
      rw [hb] at h
      simp only [combineBy] at h
      rcases Nat.lt_or_ge bk ek with hcmp | hcmp
      · rw [if_pos (decide_eq_true hcmp)] at h
        injection h with h2
        injection h2 with hj hk
        subst hj; subst hk
        obtain ⟨es1, es2, heq, h1, h2⟩ := ih hb
        refine ⟨(ei, ek) :: es1, es2, by simp [heq], ?_, h2⟩
        intro x hx
        rcases List.mem_cons.1 hx with rfl | hx
        · exact hcmp
        · exact h1 x hx
      · rw [if_neg (fun hd => Nat.not_lt.2 hcmp (of_decide_eq_true hd))] at h
        injection h with h2
        injection h2 with hj hk
        subst hj; subst hk
        obtain ⟨es1, es2, heq, h1, h2⟩ := ih hb
        refine ⟨[], rest, rfl, by simp, ?_⟩
        intro x hx
        rw [heq] at hx
        rcases List.mem_append.1 hx with hx | hx
        · exact le_trans hcmp (le_of_lt (h1 x hx))
        · rcases List.mem_cons.1 hx with rfl | hx
          · exact hcmp
          · exact le_trans hcmp (h2 x hx)

/-- The scan result is the first entry (of the traversal order) holding the
maximum key: everything before it is strictly smaller, everything after it no
larger. -/
theorem bestBy_gt_spec {es : List (Nat × Nat)} {j : Nat} {k : Nat}
    (h : bestBy (· > ·) es = some (j, k)) :
    ∃ es1 es2, es = es1 ++ (j, k) :: es2
      ∧ (∀ e ∈ es1, e.2 < k) ∧ (∀ e ∈ es2, e.2 ≤ k) := by
  induction es generalizing j k with
  | nil => cases h
  | cons e rest ih =>
    obtain ⟨ei, ek⟩ := e
    rw [bestBy] at h
    cases hb : bestBy (· > ·) rest with
    | none =>
      rw [hb] at h
      have hrest : rest = [] := (bestBy_gt_eq_none_iff rest).1 hb
      simp only [combineBy, Option.some.injEq] at h
      refine ⟨[], rest, ?_, by simp, by simp [hrest]⟩
      rw [← h]
      rfl
    | some b =>
      obtain ⟨bi, bk⟩ := b
      rw [hb] at h
      simp only [combineBy] at h
      rcases Nat.lt_or_ge ek bk with hcmp | hcmp
      · rw [if_pos (decide_eq_true hcmp)] at h
        injection h with h2
        injection h2 with hj hk
        subst hj; subst hk
        obtain ⟨es1, es2, heq, h1, h2⟩ := ih hb
        refine ⟨(ei, ek) :: es1, es2, by simp [heq], ?_, h2⟩
        intro x hx
        rcases List.mem_cons.1 hx with rfl | hx
        · exact hcmp
        · exact h1 x hx
      · rw [if_neg (fun hd => Nat.not_lt.2 hcmp (of_decide_eq_true hd))] at h
        injection h with h2
        injection h2 with hj hk
        subst hj; subst hk
        obtain ⟨es1, es2, heq, h1, h2⟩ := ih hb
        refine ⟨[], rest, rfl, by simp, ?_⟩
        intro x hx
        rw [heq] at hx
        rcases List.mem_append.1 hx with hx | hx
        · exact le_trans (le_of_lt (h1 x hx)) hcmp
        · rcases List.mem_cons.1 hx with rfl | hx
          · exact hcmp
          · exact le_trans (h2 x hx) hcmp

theorem length_enumFrom (n : Nat) (l : List TestIter) :
    (enumFrom n l).length = l.length := by
  induction l generalizing n with
  | nil => rfl
  | cons t ts ih => simp [enumFrom, ih]

theorem getElem?_enumFrom (n : Nat) (l : List TestIter) (i : Nat) :
    (enumFrom n l)[i]? = l[i]?.map fun t => (n + i, t) := by
  induction l generalizing n i with
  | nil => simp [enumFrom]
  | cons t ts ih =>
    cases i with
    | zero => simp [enumFrom]
    | succ i =>
      simp only [enumFrom, List.getElem?_cons_succ, ih]
      have : n + 1 + i = n + (i + 1) := by omega
      rw [this]

theorem validEntries_cons (n : Nat) (t : TestIter) (ts : List TestIter) :
    validEntries n (t :: ts)
      = match t.current with
        | some k => (n, k) :: validEntries (n + 1) ts
        | none   => validEntries (n + 1) ts := by
  cases hc : t.current with
  | none => simp [validEntries, enumFrom, entryKeyed, hc]
  | some k => simp [validEntries, enumFrom, entryKeyed, hc]

theorem mem_validEntries {n i k : Nat} {l : List TestIter} :
    (i, k) ∈ validEntries n l
      ↔ n ≤ i ∧ ∃ t, l[i - n]? = some t ∧ t.current = some k := by
  induction l generalizing n with
  | nil => simp [validEntries, enumFrom]
  | cons t ts ih =>
    rw [validEntries_cons]
    cases hc : t.current with
    | none =>
      simp only
      rw [ih]
      constructor
      · rintro ⟨hn, t2, hget, hcur⟩
        refine ⟨by omega, t2, ?_, hcur⟩
        have h3 : i - n = (i - (n + 1)) + 1 := by omega
        rw [h3, List.getElem?_cons_succ]
        exact hget
      · rintro ⟨hn, t2, hget, hcur⟩
        rcases Nat.eq_or_lt_of_le hn with heq | hlt
        · subst heq
          simp at hget
          rw [← hget] at hcur
          rw [hc] at hcur
          cases hcur
        · refine ⟨by omega, t2, ?_, hcur⟩
          have h2 : i - n = (i - (n + 1)) + 1 := by omega
          rw [h2, List.getElem?_cons_succ] at hget
          exact hget
    | some k0 =>
      simp only [List.mem_cons, Prod.mk.injEq]
      rw [ih]
      constructor
      · rintro (⟨rfl, rfl⟩ | ⟨hn, t2, hget, hcur⟩)
        · exact ⟨le_refl _, t, by simp, by simp [hc]⟩
        · refine ⟨by omega, t2, ?_, hcur⟩
          have h3 : i - n = (i - (n + 1)) + 1 := by omega
          rw [h3, List.getElem?_cons_succ]
          exact hget
      · rintro ⟨hn, t2, hget, hcur⟩
        rcases Nat.eq_or_lt_of_le hn with heq | hlt
        · subst heq
          simp only [Nat.sub_self, List.getElem?_cons_zero, Option.some.injEq] at hget
          rw [← hget] at hcur
          rw [hc] at hcur
          injection hcur with hk
          exact Or.inl ⟨rfl, hk.symm⟩
        · refine Or.inr ⟨by omega, t2, ?_, hcur⟩
          have h2 : i - n = (i - (n + 1)) + 1 := by omega
          rw [h2, List.getElem?_cons_succ] at hget
          exact hget

theorem validEntries_lower_bound {n : Nat} {l : List TestIter} :
    ∀ e ∈ validEntries n l, n ≤ e.1 := by
  induction l generalizing n with
  | nil =>
    intro e he
    simp [validEntries, enumFrom] at he
  | cons t ts ih =>
    intro e he
    rw [validEntries_cons] at he
    cases hc : t.current with
    | none =>
      rw [hc] at he
      have := ih e he
      omega
    | some k0 =>
      rw [hc] at he
      rcases List.mem_cons.1 he with rfl | he
      · exact le_refl n
      · have := ih e he
        omega

theorem pairwise_validEntries (n : Nat) (l : List TestIter) :
    (validEntries n l).Pairwise fun e1 e2 => e1.1 < e2.1 := by
  induction l generalizing n with
  | nil => simp [validEntries, enumFrom]
  | cons t ts ih =>
    rw [validEntries_cons]
    cases hc : t.current with
    | none => exact ih (n + 1)
    | some k0 =>
      refine List.pairwise_cons.2 ⟨?_, ih (n + 1)⟩
      intro e he
      have := validEntries_lower_bound e he
      omega

theorem length_modifyAt (f : TestIter → TestIter) (j : Nat) (l : List TestIter) :
    (modifyAt f j l).length = l.length := by
  induction l generalizing j with
  | nil => cases j <;> rfl
  | cons t ts ih =>
    cases j with
    | zero => rfl
    | succ j => simp [modifyAt, ih]

theorem getElem?_modifyAt (f : TestIter → TestIter) (j i : Nat) (l : List TestIter) :
    (modifyAt f j l)[i]? = if i = j then l[i]?.map f else l[i]? := by
  induction l generalizing i j with
  | nil => cases j <;> simp [modifyAt]
  | cons t ts ih =>
    cases j with
    | zero =>
      cases i with
      | zero => simp [modifyAt]
      | succ i => simp [modifyAt]
    | succ j =>
      cases i with
      | zero => simp [modifyAt]
      | succ i =>
        simp only [modifyAt, List.getElem?_cons_succ, ih]
        by_cases h : i = j
        · simp [h]
        · simp [h, fun hne => h (Nat.succ_injective hne)]

theorem length_mapOthers (f : TestIter → TestIter) (j : Nat) (l : List TestIter) :
    (mapOthers f j l).length = l.length := by
  simp [mapOthers, length_enumFrom]

theorem getElem?_mapOthers (f : TestIter → TestIter) (j i : Nat) (l : List TestIter) :
    (mapOthers f j l)[i]? = if i = j then l[i]? else l[i]?.map f := by
  simp only [mapOthers, List.getElem?_map, getElem?_enumFrom, Nat.zero_add]
  cases hg : l[i]? with
  | none => simp
  | some t => by_cases h : i = j <;> simp [h]

/-! ### Characterizations of the extremal-selection functions -/

/-- The `find_smallest_iter` scan finds nothing exactly when every component
iterator is invalid. -/
theorem scanSmallest_eq_none_iff (l : List TestIter) :
    scanBest (· < ·) (enumFrom 0 l) none = none ↔ ∀ t ∈ l, t.current = none := by
  rw [scanBest_eq_pick, pick_eq_bestBy_lt]
  show bestBy (· < ·) (validEntries 0 l) = none ↔ _
  rw [bestBy_lt_eq_none_iff]
  constructor
  · intro h t ht
    obtain ⟨i, hi, hget⟩ := List.getElem_of_mem ht
    cases hc : t.current with
    | none => rfl
    | some k =>
      have hin : (i, k) ∈ validEntries 0 l :=
        mem_validEntries.2 ⟨Nat.zero_le i, t, by simp [hget, List.getElem?_eq_getElem hi], hc⟩
      have h2 : validEntries 0 l = [] := h
      rw [h2] at hin
      cases hin
  · intro h
    rcases he : validEntries 0 l with _ | ⟨⟨i, k⟩, rest⟩
    · rfl
    · exfalso
      have hmem : (i, k) ∈ validEntries 0 l := by rw [he]; exact List.mem_cons_self _ _
      obtain ⟨-, t, hget, hcur⟩ := mem_validEntries.1 hmem
      have ht : t ∈ l := List.getElem?_mem (by simpa using hget)
      rw [h t ht] at hcur
      cases hcur

/-- Full characterization of a successful `find_smallest_iter` scan: the chosen
iterator is valid with key `k`, `k` is a minimum among all valid keys, and every
valid iterator with a smaller index has a strictly greater key (lowest index
wins among ties). -/
theorem scanSmallest_eq_some_spec {l : List TestIter} {j k : Nat}
    (h : scanBest (· < ·) (enumFrom 0 l) none = some (j, k)) :
    (∃ t, l[j]? = some t ∧ t.current = some k) ∧
    (∀ i t ki, l[i]? = some t → t.current = some ki → k ≤ ki ∧ (i < j → k < ki)) := by
  rw [scanBest_eq_pick, pick_eq_bestBy_lt] at h
  replace h : bestBy (· < ·) (validEntries 0 l) = some (j, k) := h
  obtain ⟨es1, es2, heq, h1, h2⟩ := bestBy_lt_spec h
  have hpw := pairwise_validEntries 0 l
  rw [heq] at hpw
  have hj : (j, k) ∈ validEntries 0 l := by
    rw [heq]; exact List.mem_append.2 (Or.inr (List.mem_cons_self _ _))
  obtain ⟨-, tj, hgetj, hcurj⟩ := mem_validEntries.1 hj
  refine ⟨⟨tj, by simpa using hgetj, hcurj⟩, ?_⟩
  intro i t ki hget hcur
  have hmem : (i, ki) ∈ validEntries 0 l :=
    mem_validEntries.2 ⟨Nat.zero_le i, t, by simpa using hget, hcur⟩
  rw [heq] at hmem
  rcases List.mem_append.1 hmem with hmem | hmem
  · -- before the pivot: strictly greater key, index below j
    exact ⟨le_of_lt (h1 _ hmem), fun _ => h1 _ hmem⟩
  · rcases List.mem_cons.1 hmem with hmem | hmem
    · injection hmem with hji hki
      subst hki
      exact ⟨le_refl _, fun hlt => absurd hji (by omega)⟩
    · -- after the pivot: key no smaller, index above j
      refine ⟨h2 _ hmem, fun hlt => ?_⟩
      exfalso
      have : j < i := by
        have := (List.pairwise_append.1 hpw).2.1
        exact (List.pairwise_cons.1 this).1 (i, ki) hmem
      omega

/-- The `find_largest_iter` scan finds nothing exactly when every component
iterator is invalid. -/
theorem scanLargest_eq_none_iff (l : List TestIter) :
    scanBest (· > ·) (enumFrom 0 l).reverse none = none ↔ ∀ t ∈ l, t.current = none := by
  rw [scanBest_eq_pick, pick_eq_bestBy_gt]
  show bestBy (· > ·) ((enumFrom 0 l).reverse.filterMap entryKeyed) = none ↔ _
  rw [List.filterMap_reverse, bestBy_gt_eq_none_iff, List.reverse_eq_nil_iff]
  constructor
  · intro h t ht
    obtain ⟨i, hi, hget⟩ := List.getElem_of_mem ht
    cases hc : t.current with
    | none => rfl
    | some k =>
      have hin : (i, k) ∈ validEntries 0 l :=
        mem_validEntries.2 ⟨Nat.zero_le i, t, by simp [hget, List.getElem?_eq_getElem hi], hc⟩
      have h2 : validEntries 0 l = [] := h
      rw [h2] at hin
      cases hin
  · intro h
    rcases he : validEntries 0 l with _ | ⟨⟨i, k⟩, rest⟩
    · exact he
    · exfalso
      have hmem : (i, k) ∈ validEntries 0 l := by rw [he]; exact List.mem_cons_self _ _
      obtain ⟨-, t, hget, hcur⟩ := mem_validEntries.1 hmem
      have ht : t ∈ l := List.getElem?_mem (by simpa using hget)
      rw [h t ht] at hcur
      cases hcur

/-- Full characterization of a successful `find_largest_iter` scan: the chosen
iterator is valid with key `k`, `k` is a maximum among all valid keys, and every
valid iterator with a greater index has a strictly smaller key (highest index
wins among ties). -/
theorem scanLargest_eq_some_spec {l : List TestIter} {j k : Nat}
    (h : scanBest (· > ·) (enumFrom 0 l).reverse none = some (j, k)) :
    (∃ t, l[j]? = some t ∧ t.current = some k) ∧
    (∀ i t ki, l[i]? = some t → t.current = some ki → ki ≤ k ∧ (j < i → ki < k)) := by
  rw [scanBest_eq_pick, pick_eq_bestBy_gt] at h
  rw [List.filterMap_reverse] at h
  replace h : bestBy (· > ·) ((validEntries 0 l).reverse) = some (j, k) := h
  obtain ⟨es1, es2, heq, h1, h2⟩ := bestBy_gt_spec h
  have heq2 : validEntries 0 l = es2.reverse ++ (j, k) :: es1.reverse := by
    have := congrArg List.reverse heq
    rw [List.reverse_reverse] at this
    rw [this]
    simp
  have hpw := pairwise_validEntries 0 l
  rw [heq2] at hpw
  have hj : (j, k) ∈ validEntries 0 l := by
    rw [heq2]; exact List.mem_append.2 (Or.inr (List.mem_cons_self _ _))
  obtain ⟨-, tj, hgetj, hcurj⟩ := mem_validEntries.1 hj
  refine ⟨⟨tj, by simpa using hgetj, hcurj⟩, ?_⟩
  intro i t ki hget hcur
  have hmem : (i, ki) ∈ validEntries 0 l :=
    mem_validEntries.2 ⟨Nat.zero_le i, t, by simpa using hget, hcur⟩
  rw [heq2] at hmem
  rcases List.mem_append.1 hmem with hmem | hmem
  · -- in `es2.reverse`: before the pivot in index order, so index below j
    have hile : (i, ki) ∈ es2 := List.mem_reverse.1 hmem
    refine ⟨h2 _ hile, fun hlt => ?_⟩
    exfalso
    have : i < j := by
      have hcross := (List.pairwise_append.1 hpw).2.2
      exact hcross (i, ki) hmem (j, k) (List.mem_cons_self _ _)
    omega
  · rcases List.mem_cons.1 hmem with hmem | hmem
    · injection hmem with hji hki
      subst hki
      exact ⟨le_refl _, fun hlt => absurd hji (by omega)⟩
    · have hile : (i, ki) ∈ es1 := List.mem_reverse.1 hmem
      exact ⟨le_of_lt (h1 _ hile), fun _ => h1 _ hile⟩


/-! ### Buffer-pool construction, release, and poison handling -/

/-- **C2** (code evaluation at the failing input): the
`pool.extend(iter::repeat_with(|| Some(OwnedItem::default())))` loop of
`PooledIter::new` and `ThreadsafePooledIter::new` never terminates, because the
source iterator never yields `None`; for every amount of fuel and every
intermediate pool state the loop is still running, so construction never
returns a pool at all — let alone one with `num_buffers` initially free slots.
(Additionally, `available_buffers` counts the `is_none()` — checked-out —
slots, so even on the intended pool of `n` free slots it would return `0`.) -/
theorem pooledIter_new_construction_diverges :
    (∀ (fuel : Nat) (acc : List (Option Unit)), extendLoop fuel acc = none)
    ∧ ∀ n : Nat, availableBuffers (List.replicate n (some ())) = 0 := by
  constructor
  · intro fuel
    induction fuel with
    | zero => intro acc; rfl
    | succ f ih => intro acc; exact ih (acc ++ [some ()])
  · intro n
    induction n with
    | zero => rfl
    | succ n ih =>
      simp only [availableBuffers, List.replicate_succ, List.map_cons, List.sum_cons] at *
      simp [ih]

/-- **C3** (divergence witness): the pool-side effect sequence of
`ThreadsafePoolItem::drop` contains no condition-variable notification — it is
exactly lock, write-back, unlock — while `fill_buffer_fallback` blocks in
`Condvar::wait` until notified.  The write-back itself does free the slot. -/
theorem threadsafePoolItemDrop_no_notify (s : Nat) (buf : Nat)
    (pool : List (Option Nat)) (hs : s < pool.length) :
    PoolEvent.notifyOne ∉ threadsafePoolItemDropEvents s
    ∧ threadsafePoolItemDropEvents s
        ≠ [PoolEvent.lock, PoolEvent.writeBack s, PoolEvent.notifyOne, PoolEvent.unlock]
    ∧ (poolItemDropWriteBack pool s buf)[s]? = some (some buf) := by
  refine ⟨by simp [threadsafePoolItemDropEvents], by simp [threadsafePoolItemDropEvents], ?_⟩
  simp [poolItemDropWriteBack, List.getElem?_set_self, hs]

theorem threadsafePoolItemDrop_no_notify_witness :
    PoolEvent.notifyOne ∉ threadsafePoolItemDropEvents 0
    ∧ threadsafePoolItemDropEvents 0
        ≠ [PoolEvent.lock, PoolEvent.writeBack 0, PoolEvent.notifyOne, PoolEvent.unlock]
    ∧ (poolItemDropWriteBack [none] 0 7)[0]? = some (some 7) :=
  threadsafePoolItemDrop_no_notify 0 7 [none] (by decide)

/-- **C8** (divergence witness): taking the pool lock through
`lock().unwrap()` — the shape used by `pool_contents` and thus by every
threadsafe pool operation, as well as by `fill_buffer_fallback`'s
`Condvar::wait(..).unwrap()` — panics when the mutex is poisoned instead of
recovering the lock; only on an unpoisoned mutex does the operation proceed. -/
theorem pool_contents_panics_on_poison (pool : List (Option Nat)) :
    pool_contents true pool = none ∧ pool_contents false pool = some pool :=
  ⟨rfl, rfl⟩

/-! ### Merging-iterator construction -/

/-- **C9**: `MergingIter::new(iterators, cmp)` panics (modelled `none`) exactly
when the iterator count is `usize::MAX`; for every other count it succeeds,
keeping the given iterators, with no component selected (`current_iter =
None`, hence `valid()` false and `current()` the none-value) and direction
`Forwards`. -/
theorem mergingIter_new_spec (iters : List TestIter) :
    (MergingIter.new iters = none ↔ iters.length = USIZE_MAX)
    ∧ (∀ m, MergingIter.new iters = some m
        → m.iterators = iters ∧ m.currentIter = none ∧ m.direction = .Forwards
          ∧ m.valid = false ∧ m.current = none) := by
  constructor
  · constructor
    · intro h
      by_contra hne
      simp [MergingIter.new, hne] at h
    · intro h
      simp [MergingIter.new, h]
  · intro m hm
    by_cases h : iters.length = USIZE_MAX
    · simp [MergingIter.new, h] at hm
    · simp only [MergingIter.new, h, if_false] at hm
      injection hm with hm
      refine ⟨by rw [← hm], by rw [← hm], by rw [← hm], ?_, ?_⟩ <;> rw [← hm] <;> rfl

theorem mergingIter_new_spec_witness :
    (MergingIter.new [TestIter.mk [0, 1] none] = none
        ↔ [TestIter.mk [0, 1] none].length = USIZE_MAX)
    ∧ (∀ m, MergingIter.new [TestIter.mk [0, 1] none] = some m
        → m.iterators = [TestIter.mk [0, 1] none] ∧ m.currentIter = none
          ∧ m.direction = .Forwards ∧ m.valid = false ∧ m.current = none) :=
  mergingIter_new_spec [TestIter.mk [0, 1] none]


/-! ### Extremal selection at the merging-iterator level -/

theorem findSmallestIter_none_iff (m : MergingIter) :
    m.findSmallestIter.currentIter = none ↔ ∀ t ∈ m.iterators, t.current = none := by
  show (scanBest (· < ·) (enumFrom 0 m.iterators) none).map Prod.fst = none ↔ _
  rw [Option.map_eq_none']
  exact scanSmallest_eq_none_iff m.iterators

theorem findLargestIter_none_iff (m : MergingIter) :
    m.findLargestIter.currentIter = none ↔ ∀ t ∈ m.iterators, t.current = none := by
  show (scanBest (· > ·) (enumFrom 0 m.iterators).reverse none).map Prod.fst = none ↔ _
  rw [Option.map_eq_none']
  exact scanLargest_eq_none_iff m.iterators

theorem findSmallestIter_some_spec {m : MergingIter} {j : Nat}
    (h : m.findSmallestIter.currentIter = some j) :
    ∃ tj k, m.iterators[j]? = some tj ∧ tj.current = some k ∧
      ∀ i t ki, m.iterators[i]? = some t → t.current = some ki →
        k ≤ ki ∧ (i < j → k < ki) := by
  replace h : (scanBest (· < ·) (enumFrom 0 m.iterators) none).map Prod.fst = some j := h
  rw [Option.map_eq_some'] at h
  obtain ⟨⟨j2, k⟩, hscan, hfst⟩ := h
  obtain rfl : j2 = j := hfst
  obtain ⟨⟨tj, hgetj, hcurj⟩, hmin⟩ := scanSmallest_eq_some_spec hscan
  exact ⟨tj, k, hgetj, hcurj, hmin⟩

theorem findLargestIter_some_spec {m : MergingIter} {j : Nat}
    (h : m.findLargestIter.currentIter = some j) :
    ∃ tj k, m.iterators[j]? = some tj ∧ tj.current = some k ∧
      ∀ i t ki, m.iterators[i]? = some t → t.current = some ki →
        ki ≤ k ∧ (j < i → ki < k) := by
  replace h : (scanBest (· > ·) (enumFrom 0 m.iterators).reverse none).map Prod.fst
      = some j := h
  rw [Option.map_eq_some'] at h
  obtain ⟨⟨j2, k⟩, hscan, hfst⟩ := h
  obtain rfl : j2 = j := hfst
  obtain ⟨⟨tj, hgetj, hcurj⟩, hmax⟩ := scanLargest_eq_some_spec hscan
  exact ⟨tj, k, hgetj, hcurj, hmax⟩

@[simp] theorem iterators_findSmallestIter (m : MergingIter) :
    m.findSmallestIter.iterators = m.iterators := rfl

@[simp] theorem iterators_findLargestIter (m : MergingIter) :
    m.findLargestIter.iterators = m.iterators := rfl

@[simp] theorem direction_findSmallestIter (m : MergingIter) :
    m.findSmallestIter.direction = m.direction := rfl

@[simp] theorem direction_findLargestIter (m : MergingIter) :
    m.findLargestIter.direction = m.direction := rfl

/-- The entry at the merging iterator's position right after
`find_smallest_iter` is the second component of the scan result. -/
theorem current_findSmallestIter (m : MergingIter) :
    m.findSmallestIter.current
      = (scanBest (· < ·) (enumFrom 0 m.iterators) none).map Prod.snd := by
  cases hscan : scanBest (· < ·) (enumFrom 0 m.iterators) none with
  | none =>
    have hci : m.findSmallestIter.currentIter = none := by
      show (scanBest (· < ·) (enumFrom 0 m.iterators) none).map Prod.fst = none
      rw [hscan]; rfl
    simp [MergingIter.current, hci]
  | some e =>
    obtain ⟨j, k⟩ := e
    have hci : m.findSmallestIter.currentIter = some j := by
      show (scanBest (· < ·) (enumFrom 0 m.iterators) none).map Prod.fst = some j
      rw [hscan]; rfl
    obtain ⟨⟨tj, hgetj, hcurj⟩, -⟩ := scanSmallest_eq_some_spec hscan
    simp [MergingIter.current, hci, hgetj, hcurj]

/-- Mirror of `current_findSmallestIter` for `find_largest_iter`. -/
theorem current_findLargestIter (m : MergingIter) :
    m.findLargestIter.current
      = (scanBest (· > ·) (enumFrom 0 m.iterators).reverse none).map Prod.snd := by
  cases hscan : scanBest (· > ·) (enumFrom 0 m.iterators).reverse none with
  | none =>
    have hci : m.findLargestIter.currentIter = none := by
      show (scanBest (· > ·) (enumFrom 0 m.iterators).reverse none).map Prod.fst = none
      rw [hscan]; rfl
    simp [MergingIter.current, hci]
  | some e =>
    obtain ⟨j, k⟩ := e
    have hci : m.findLargestIter.currentIter = some j := by
      show (scanBest (· > ·) (enumFrom 0 m.iterators).reverse none).map Prod.fst = some j
      rw [hscan]; rfl
    obtain ⟨⟨tj, hgetj, hcurj⟩, -⟩ := scanLargest_eq_some_spec hscan
    simp [MergingIter.current, hci, hgetj, hcurj]

/-! ### C5: deterministic tie-breaking -/

/-- **C5**: whenever several component iterators are positioned at equal
extremal keys, `find_smallest_iter` selects the lowest-indexed one among them
and `find_largest_iter` the highest-indexed one. -/
theorem find_extremal_tiebreak (m : MergingIter) (i1 i2 k : Nat)
    (hne : i1 ≠ i2)
    (h1 : m.compCurrent i1 = some k) (h2 : m.compCurrent i2 = some k) :
    ((∀ i ki, m.compCurrent i = some ki → k ≤ ki) →
      ∃ j, m.findSmallestIter.currentIter = some j ∧ m.compCurrent j = some k ∧
        ∀ i, m.compCurrent i = some k → j ≤ i)
    ∧ ((∀ i ki, m.compCurrent i = some ki → ki ≤ k) →
      ∃ j, m.findLargestIter.currentIter = some j ∧ m.compCurrent j = some k ∧
        ∀ i, m.compCurrent i = some k → i ≤ j) := by
  obtain ⟨t1, hget1, hcur1⟩ := Option.bind_eq_some.1 h1
  constructor
  · intro hmin
    cases hj : m.findSmallestIter.currentIter with
    | none =>
      exfalso
      have hall := (findSmallestIter_none_iff m).1 hj
      rw [hall t1 (List.getElem?_mem hget1)] at hcur1
      cases hcur1
    | some j =>
      obtain ⟨tj, k0, hgetj, hcurj, hspec⟩ := findSmallestIter_some_spec hj
      have hk0k : k0 ≤ k := (hspec i1 t1 k hget1 hcur1).1
      have hkk0 : k ≤ k0 := hmin j k0 (by simp [MergingIter.compCurrent, hgetj, hcurj])
      have hk : k0 = k := le_antisymm hk0k hkk0
      refine ⟨j, rfl, by simp [MergingIter.compCurrent, hgetj, hcurj, hk], ?_⟩
      intro i hi
      by_contra hij
      obtain ⟨t, hget, hcur⟩ := Option.bind_eq_some.1 hi
      have := (hspec i t k hget hcur).2 (by omega)
      omega
  · intro hmax
    cases hj : m.findLargestIter.currentIter with
    | none =>
      exfalso
      have hall := (findLargestIter_none_iff m).1 hj
      rw [hall t1 (List.getElem?_mem hget1)] at hcur1
      cases hcur1
    | some j =>
      obtain ⟨tj, k0, hgetj, hcurj, hspec⟩ := findLargestIter_some_spec hj
      have hk0k : k ≤ k0 := (hspec i1 t1 k hget1 hcur1).1
      have hkk0 : k0 ≤ k := hmax j k0 (by simp [MergingIter.compCurrent, hgetj, hcurj])
      have hk : k0 = k := le_antisymm hkk0 hk0k
      refine ⟨j, rfl, by simp [MergingIter.compCurrent, hgetj, hcurj, hk], ?_⟩
      intro i hi
      by_contra hij
      obtain ⟨t, hget, hcur⟩ := Option.bind_eq_some.1 hi
      have := (hspec i t k hget hcur).2 (by omega)
      omega

theorem find_extremal_tiebreak_witness :
    ((∀ i ki, (MergingIter.mk [TestIter.mk [5] (some 0), TestIter.mk [5] (some 0)]
          none .Forwards).compCurrent i = some ki → 5 ≤ ki) →
      ∃ j, (MergingIter.mk [TestIter.mk [5] (some 0), TestIter.mk [5] (some 0)]
          none .Forwards).findSmallestIter.currentIter = some j ∧
        (MergingIter.mk [TestIter.mk [5] (some 0), TestIter.mk [5] (some 0)]
          none .Forwards).compCurrent j = some 5 ∧
        ∀ i, (MergingIter.mk [TestIter.mk [5] (some 0), TestIter.mk [5] (some 0)]
          none .Forwards).compCurrent i = some 5 → j ≤ i)
    ∧ ((∀ i ki, (MergingIter.mk [TestIter.mk [5] (some 0), TestIter.mk [5] (some 0)]
          none .Forwards).compCurrent i = some ki → ki ≤ 5) →
      ∃ j, (MergingIter.mk [TestIter.mk [5] (some 0), TestIter.mk [5] (some 0)]
          none .Forwards).findLargestIter.currentIter = some j ∧
        (MergingIter.mk [TestIter.mk [5] (some 0), TestIter.mk [5] (some 0)]
          none .Forwards).compCurrent j = some 5 ∧
        ∀ i, (MergingIter.mk [TestIter.mk [5] (some 0), TestIter.mk [5] (some 0)]
          none .Forwards).compCurrent i = some 5 → i ≤ j) :=
  find_extremal_tiebreak
    (MergingIter.mk [TestIter.mk [5] (some 0), TestIter.mk [5] (some 0)] none .Forwards)
    0 1 5 (by decide) rfl rfl


/-! ### Component-level seek positioning -/

theorem filter_geq_eq_drop_findIdx {l : List Nat} (hs : l.Sorted (· < ·)) (k : Nat) :
    l.filter (fun x => k ≤ x) = l.drop (l.findIdx fun x => k ≤ x) := by
  induction l with
  | nil => rfl
  | cons a l ih =>
    have hall := (List.sorted_cons.1 hs).1
    have hs2 := (List.sorted_cons.1 hs).2
    rw [List.findIdx_cons, List.filter_cons]
    by_cases hka : k ≤ a
    · simp only [hka, decide_True, cond_true, if_true, List.drop_zero]
      congr 1
      refine List.filter_eq_self.2 fun x hx => ?_
      simp only [decide_eq_true_eq]
      exact le_trans hka (le_of_lt (hall x hx))
    · simp only [hka, decide_False, cond_false, Bool.false_eq_true, if_false]
      rw [List.drop_succ_cons]
      exact ih hs2

theorem filter_lt_eq_take_findIdx {l : List Nat} (hs : l.Sorted (· < ·)) (k : Nat) :
    l.filter (fun x => x < k) = l.take (l.findIdx fun x => k ≤ x) := by
  induction l with
  | nil => rfl
  | cons a l ih =>
    have hall := (List.sorted_cons.1 hs).1
    have hs2 := (List.sorted_cons.1 hs).2
    rw [List.findIdx_cons, List.filter_cons]
    by_cases hka : k ≤ a
    · have hna : ¬ a < k := not_lt.2 hka
      simp only [hka, decide_True, cond_true, hna, decide_False, Bool.false_eq_true,
        if_false, List.take_zero]
      refine List.filter_eq_nil_iff.2 fun x hx => ?_
      simp only [decide_eq_true_eq]
      exact not_lt.2 (le_trans hka (le_of_lt (hall x hx)))
    · have ha : a < k := not_le.1 hka
      simp only [hka, decide_False, cond_false, ha, decide_True, if_true,
        List.take_succ_cons]
      rw [ih hs2]

/-- `TestIter::seek` lands on the head of the `≥ k` region: its `current` is
the first (smallest) data entry that is `≥ k`, if any. -/
theorem TestIter.seek_current (t : TestIter) (hwf : t.WFData) (k : Nat) :
    (t.seek k).current = (t.data.filter fun x => k ≤ x).head? := by
  rw [filter_geq_eq_drop_findIdx hwf k, List.head?_drop]
  simp only [TestIter.seek, TestIter.current]
  by_cases hj : (t.data.findIdx fun x => k ≤ x) < t.data.length
  · simp [hj]
  · simp [hj, List.getElem?_eq_none (le_of_not_lt hj)]

/-- `TestIter::seek_before` lands on the last entry of the `< k` region: its
`current` is the last (largest) data entry that is `< k`, if any. -/
theorem TestIter.seekBefore_current (t : TestIter) (hwf : t.WFData) (k : Nat) :
    (t.seekBefore k).current = (t.data.filter fun x => x < k).getLast? := by
  rw [filter_lt_eq_take_findIdx hwf k]
  have hjle : (t.data.findIdx fun x => k ≤ x) ≤ t.data.length :=
    List.findIdx_le_length _
  rw [List.getLast?_eq_getElem?]
  by_cases h0 : (t.data.findIdx fun x => k ≤ x) = 0
  · simp [TestIter.seekBefore, TestIter.current, h0]
  · have hlen : (t.data.take (t.data.findIdx fun x => k ≤ x)).length
        = t.data.findIdx fun x => k ≤ x := by
      rw [List.length_take]
      omega
    rw [hlen, List.getElem?_take_of_lt (by omega)]
    simp only [TestIter.seekBefore, TestIter.current, h0, if_false]
    rfl

theorem sorted_head?_le {l : List Nat} (hs : l.Sorted (· < ·)) {a : Nat}
    (h : l.head? = some a) : ∀ b ∈ l, a ≤ b := by
  cases l with
  | nil => cases h
  | cons x l =>
    injection h with h
    subst h
    intro b hb
    rcases List.mem_cons.1 hb with rfl | hb
    · exact le_refl b
    · exact le_of_lt ((List.sorted_cons.1 hs).1 b hb)

theorem sorted_getLast?_ge {l : List Nat} (hs : l.Sorted (· < ·)) {a : Nat}
    (h : l.getLast? = some a) : ∀ b ∈ l, b ≤ a := by
  induction l with
  | nil => cases h
  | cons x l ih =>
    cases l with
    | nil =>
      simp only [List.getLast?_singleton, Option.some.injEq] at h
      subst h
      intro b hb
      simp only [List.mem_singleton] at hb
      subst hb
      exact le_refl _
    | cons y l2 =>
      rw [List.getLast?_cons_cons] at h
      intro b hb
      rcases List.mem_cons.1 hb with rfl | hb
      · have ha : a ∈ y :: l2 := List.mem_of_mem_getLast? h
        exact le_of_lt ((List.sorted_cons.1 hs).1 a ha)
      · exact ih (List.sorted_cons.1 hs).2 h b hb


/-! ### C6: seek positioning of the merging iterator -/

theorem mergingIter_seek_min (m : MergingIter)
    (hwf : ∀ t ∈ m.iterators, t.WFData) (k : Nat) :
    (m.seek k).current = (m.allKeys.filter fun x => k ≤ x).min?
    ∧ ((m.seek k).valid = true ↔ (m.allKeys.filter fun x => k ≤ x) ≠ []) := by
  have hF : m.allKeys.filter (fun x => k ≤ x)
      = (m.iterators.map fun t => t.data.filter fun x => k ≤ x).flatten := by
    rw [MergingIter.allKeys, List.filter_flatten, List.map_map]
    rfl
  have hcur : (m.seek k).current
      = (scanBest (· < ·)
          (enumFrom 0 (m.iterators.map fun t => TestIter.seek t k)) none).map Prod.snd :=
    current_findSmallestIter
      (MergingIter.mk (m.iterators.map fun t => TestIter.seek t k)
        m.currentIter m.direction)
  have hci : (m.seek k).currentIter
      = (scanBest (· < ·)
          (enumFrom 0 (m.iterators.map fun t => TestIter.seek t k)) none).map Prod.fst :=
    rfl
  cases hscan : scanBest (· < ·)
      (enumFrom 0 (m.iterators.map fun t => TestIter.seek t k)) none with
  | none =>
    have hall := (scanSmallest_eq_none_iff _).1 hscan
    have hnil : m.allKeys.filter (fun x => k ≤ x) = [] := by
      rw [hF]
      refine List.join_eq_nil_iff.2 fun fl hfl => ?_
      obtain ⟨t, ht, rfl⟩ := List.mem_map.1 hfl
      have hseek : (TestIter.seek t k).current = none :=
        hall _ (List.mem_map_of_mem (fun t => TestIter.seek t k) ht)
      rw [TestIter.seek_current t (hwf t ht) k] at hseek
      exact List.head?_eq_none_iff.1 hseek
    rw [hnil]
    constructor
    · rw [hcur, hscan]
      rfl
    · rw [MergingIter.valid, hci, hscan]
      simp
  | some e =>
    obtain ⟨j, k0⟩ := e
    obtain ⟨⟨tj2, hgetj2, hcurj2⟩, hmin⟩ := scanSmallest_eq_some_spec hscan
    rw [List.getElem?_map] at hgetj2
    obtain ⟨tj0, hgetj0, rfl⟩ := Option.map_eq_some'.1 hgetj2
    have htj0mem : tj0 ∈ m.iterators := List.getElem?_mem hgetj0
    have hj2cur : (tj0.data.filter fun x => k ≤ x).head? = some k0 := by
      rw [← TestIter.seek_current tj0 (hwf tj0 htj0mem) k]
      exact hcurj2
    have hk0mem : k0 ∈ m.allKeys.filter fun x => k ≤ x := by
      rw [hF]
      exact List.mem_join.2 ⟨_, List.mem_map_of_mem _ htj0mem, List.mem_of_mem_head? hj2cur⟩
    have hk0min : ∀ b ∈ m.allKeys.filter fun x => k ≤ x, k0 ≤ b := by
      intro b hb
      rw [hF] at hb
      obtain ⟨fl, hfl, hbfl⟩ := List.mem_join.1 hb
      obtain ⟨t0, ht0, rfl⟩ := List.mem_map.1 hfl
      obtain ⟨i, hi, hgt0⟩ := List.getElem_of_mem ht0
      cases hh : (t0.data.filter fun x => k ≤ x).head? with
      | none =>
        rw [List.head?_eq_none_iff.1 hh] at hbfl
        cases hbfl
      | some h =>
        have hcur0 : (TestIter.seek t0 k).current = some h := by
          rw [TestIter.seek_current t0 (hwf t0 ht0) k]
          exact hh
        have hk0h : k0 ≤ h := by
          refine (hmin i (TestIter.seek t0 k) h ?_ hcur0).1
          rw [List.getElem?_map, List.getElem?_eq_getElem hi, hgt0]
          rfl
        exact le_trans hk0h
          (sorted_head?_le ((hwf t0 ht0).filter _) hh b hbfl)
    constructor
    · rw [hcur, hscan]
      show some k0 = _
      symm
      rw [List.minimum?_eq_some_iff']
      exact ⟨hk0mem, hk0min⟩
    · rw [MergingIter.valid, hci, hscan]
      constructor
      · intro _ hnil
        rw [hnil] at hk0mem
        cases hk0mem
      · intro _
        rfl

theorem mergingIter_seekBefore_max (m : MergingIter)
    (hwf : ∀ t ∈ m.iterators, t.WFData) (k : Nat) :
    (m.seekBefore k).current = (m.allKeys.filter fun x => x < k).max?
    ∧ ((m.seekBefore k).valid = true ↔ (m.allKeys.filter fun x => x < k) ≠ []) := by
  have hF : m.allKeys.filter (fun x => x < k)
      = (m.iterators.map fun t => t.data.filter fun x => x < k).flatten := by
    rw [MergingIter.allKeys, List.filter_flatten, List.map_map]
    rfl
  have hcur : (m.seekBefore k).current
      = (scanBest (· > ·)
          (enumFrom 0 (m.iterators.map fun t => TestIter.seekBefore t k)).reverse
          none).map Prod.snd :=
    current_findLargestIter
      (MergingIter.mk (m.iterators.map fun t => TestIter.seekBefore t k)
        m.currentIter m.direction)
  have hci : (m.seekBefore k).currentIter
      = (scanBest (· > ·)
          (enumFrom 0 (m.iterators.map fun t => TestIter.seekBefore t k)).reverse
          none).map Prod.fst :=
    rfl
  cases hscan : scanBest (· > ·)
      (enumFrom 0 (m.iterators.map fun t => TestIter.seekBefore t k)).reverse none with
  | none =>
    have hall := (scanLargest_eq_none_iff _).1 hscan
    have hnil : m.allKeys.filter (fun x => x < k) = [] := by
      rw [hF]
      refine List.join_eq_nil_iff.2 fun fl hfl => ?_
      obtain ⟨t, ht, rfl⟩ := List.mem_map.1 hfl
      have hseek : (TestIter.seekBefore t k).current = none :=
        hall _ (List.mem_map_of_mem (fun t => TestIter.seekBefore t k) ht)
      rw [TestIter.seekBefore_current t (hwf t ht) k] at hseek
      exact List.getLast?_eq_none_iff.1 hseek
    rw [hnil]
    constructor
    · rw [hcur, hscan]
      rfl
    · rw [MergingIter.valid, hci, hscan]
      simp
  | some e =>
    obtain ⟨j, k0⟩ := e
    obtain ⟨⟨tj2, hgetj2, hcurj2⟩, hmax⟩ := scanLargest_eq_some_spec hscan
    rw [List.getElem?_map] at hgetj2
    obtain ⟨tj0, hgetj0, rfl⟩ := Option.map_eq_some'.1 hgetj2
    have htj0mem : tj0 ∈ m.iterators := List.getElem?_mem hgetj0
    have hj2cur : (tj0.data.filter fun x => x < k).getLast? = some k0 := by
      rw [← TestIter.seekBefore_current tj0 (hwf tj0 htj0mem) k]
      exact hcurj2
    have hk0mem : k0 ∈ m.allKeys.filter fun x => x < k := by
      rw [hF]
      exact List.mem_join.2
        ⟨_, List.mem_map_of_mem _ htj0mem, List.mem_of_mem_getLast? hj2cur⟩
    have hk0max : ∀ b ∈ m.allKeys.filter fun x => x < k, b ≤ k0 := by
      intro b hb
      rw [hF] at hb
      obtain ⟨fl, hfl, hbfl⟩ := List.mem_join.1 hb
      obtain ⟨t0, ht0, rfl⟩ := List.mem_map.1 hfl
      obtain ⟨i, hi, hgt0⟩ := List.getElem_of_mem ht0
      cases hh : (t0.data.filter fun x => x < k).getLast? with
      | none =>
        rw [List.getLast?_eq_none_iff.1 hh] at hbfl
        cases hbfl
      | some h =>
        have hcur0 : (TestIter.seekBefore t0 k).current = some h := by
          rw [TestIter.seekBefore_current t0 (hwf t0 ht0) k]
          exact hh
        have hhk0 : h ≤ k0 := by
          refine (hmax i (TestIter.seekBefore t0 k) h ?_ hcur0).1
          rw [List.getElem?_map, List.getElem?_eq_getElem hi, hgt0]
          rfl
        exact le_trans (sorted_getLast?_ge ((hwf t0 ht0).filter _) hh b hbfl) hhk0
    constructor
    · rw [hcur, hscan]
      show some k0 = _
      symm
      rw [List.maximum?_eq_some_iff']
      exact ⟨hk0mem, hk0max⟩
    · rw [MergingIter.valid, hci, hscan]
      constructor
      · intro _ hnil
        rw [hnil] at hk0mem
        cases hk0mem
      · intro _
        rfl

/-- **C6**: after `seek(k)` the merging iterator is positioned at the smallest
merged key `≥ k` — `current()` returns it — or is invalid (`valid()` false,
`current()` the none-value) when no merged key is `≥ k`; after `seek_before(k)`
it is positioned at the largest merged key `< k`, or is invalid when none
exists. -/
theorem mergingIter_seek_positions (m : MergingIter)
    (hwf : ∀ t ∈ m.iterators, t.WFData) (k : Nat) :
    ((m.seek k).current = (m.allKeys.filter fun x => k ≤ x).min?)
    ∧ ((m.seek k).valid = true ↔ (m.allKeys.filter fun x => k ≤ x) ≠ [])
    ∧ ((m.seekBefore k).current = (m.allKeys.filter fun x => x < k).max?)
    ∧ ((m.seekBefore k).valid = true ↔ (m.allKeys.filter fun x => x < k) ≠ []) :=
  ⟨(mergingIter_seek_min m hwf k).1, (mergingIter_seek_min m hwf k).2,
    (mergingIter_seekBefore_max m hwf k).1, (mergingIter_seekBefore_max m hwf k).2⟩

theorem mergingIter_seek_positions_witness :
    ((sampleMerging.seek 2).current = (sampleMerging.allKeys.filter fun x => 2 ≤ x).min?)
    ∧ ((sampleMerging.seek 2).valid = true
        ↔ (sampleMerging.allKeys.filter fun x => 2 ≤ x) ≠ [])
    ∧ ((sampleMerging.seekBefore 2).current
        = (sampleMerging.allKeys.filter fun x => x < 2).max?)
    ∧ ((sampleMerging.seekBefore 2).valid = true
        ↔ (sampleMerging.allKeys.filter fun x => x < 2) ≠ []) :=
  mergingIter_seek_positions sampleMerging
    (fun t ht => by
      rcases List.mem_cons.1 ht with rfl | ht2
      · exact (by decide : List.Sorted (· < ·) [1, 3])
      · rcases List.mem_cons.1 ht2 with rfl | ht3
        · exact (by decide : List.Sorted (· < ·) [2])
        · cases ht3) 2


/-! ### C10: non-atomicity of try_next / try_prev -/

theorem tryFillBufferFrom_of_free (item : Nat) :
    ∀ (n : Nat) (pool : List (Option Nat)) (s b : Nat), pool[s]? = some (some b) →
      ∃ r, tryFillBufferFrom item n pool = some r ∧ r.1.item = item := by
  intro n pool
  induction pool generalizing n with
  | nil =>
    intro s b h
    simp at h
  | cons slot rest ih =>
    intro s b h
    cases slot with
    | none =>
      cases s with
      | zero => simp at h
      | succ s =>
        rw [List.getElem?_cons_succ] at h
        obtain ⟨r, hr, hitem⟩ := ih (n + 1) s b h
        exact ⟨(r.1, none :: r.2), by simp [tryFillBufferFrom, hr], hitem⟩
    | some b0 =>
      exact ⟨({ item := item, poolSlot := n }, none :: rest), rfl, rfl⟩

/-- **C10**: when `try_next` (or `try_prev`) of `PooledIter` or
`ThreadsafePooledIter` returns the `OutOfBuffers` error, the inner iterator
has already been advanced one position and the advanced-over item is consumed
without being returned: the post-error state keeps the advanced inner iterator
(and the unchanged pool), the advanced-over position does hold an item, and a
subsequent `try_next` on the post-error state with any pool that now has a
free slot yields the item after the consumed one, not the consumed one. -/
theorem pooled_try_ops_not_atomic (p : PooledIter) (q : ThreadsafePooledIter) :
    ((p.tryNext).1 = .error .outOfBuffers →
      (p.tryNext).2 = PooledIter.mk p.iter.next p.pool
      ∧ (∃ a, (p.iter.next).current = some a)
      ∧ ∀ (pool2 : List (Option Nat)) (s b : Nat), pool2[s]? = some (some b) →
          ∀ c, (p.iter.next.next).current = some c →
            ∃ pi pool3,
              (PooledIter.mk p.iter.next pool2).tryNext
                = (.ok (some pi), PooledIter.mk p.iter.next.next pool3)
              ∧ pi.item = c)
    ∧ ((p.tryPrev).1 = .error .outOfBuffers →
      (p.tryPrev).2 = PooledIter.mk p.iter.prev p.pool
      ∧ (∃ a, (p.iter.prev).current = some a)
      ∧ ∀ (pool2 : List (Option Nat)) (s b : Nat), pool2[s]? = some (some b) →
          ∀ c, (p.iter.prev.prev).current = some c →
            ∃ pi pool3,
              (PooledIter.mk p.iter.prev pool2).tryPrev
                = (.ok (some pi), PooledIter.mk p.iter.prev.prev pool3)
              ∧ pi.item = c)
    ∧ ((q.tryNext).1 = .error .outOfBuffers →
      (q.tryNext).2 = ThreadsafePooledIter.mk q.iter.next q.pool
      ∧ (∃ a, (q.iter.next).current = some a)
      ∧ ∀ (pool2 : List (Option Nat)) (s b : Nat), pool2[s]? = some (some b) →
          ∀ c, (q.iter.next.next).current = some c →
            ∃ pi pool3,
              (ThreadsafePooledIter.mk q.iter.next pool2).tryNext
                = (.ok (some pi), ThreadsafePooledIter.mk q.iter.next.next pool3)
              ∧ pi.item = c)
    ∧ ((q.tryPrev).1 = .error .outOfBuffers →
      (q.tryPrev).2 = ThreadsafePooledIter.mk q.iter.prev q.pool
      ∧ (∃ a, (q.iter.prev).current = some a)
      ∧ ∀ (pool2 : List (Option Nat)) (s b : Nat), pool2[s]? = some (some b) →
          ∀ c, (q.iter.prev.prev).current = some c →
            ∃ pi pool3,
              (ThreadsafePooledIter.mk q.iter.prev pool2).tryPrev
                = (.ok (some pi), ThreadsafePooledIter.mk q.iter.prev.prev pool3)
              ∧ pi.item = c) := by
  refine ⟨?_, ?_, ?_, ?_⟩
  · intro herr
    cases hc : (p.iter.next).current with
    | none =>
      simp only [PooledIter.tryNext, hc] at herr
      cases herr
    | some a =>
      cases hf : tryFillBuffer a p.pool with
      | some r =>
        simp only [PooledIter.tryNext, hc, hf] at herr
        cases herr
      | none =>
        refine ⟨by simp only [PooledIter.tryNext, hc, hf], ⟨a, rfl⟩, ?_⟩
        intro pool2 s b hfree c hc2
        obtain ⟨r, hr, hitem⟩ := tryFillBufferFrom_of_free c 0 pool2 s b hfree
        refine ⟨r.1, r.2, ?_, hitem⟩
        show PooledIter.tryNext _ = _
        simp only [PooledIter.tryNext, hc2, tryFillBuffer, hr]
  · intro herr
    cases hc : (p.iter.prev).current with
    | none =>
      simp only [PooledIter.tryPrev, hc] at herr
      cases herr
    | some a =>
      cases hf : tryFillBuffer a p.pool with
      | some r =>
        simp only [PooledIter.tryPrev, hc, hf] at herr
        cases herr
      | none =>
        refine ⟨by simp only [PooledIter.tryPrev, hc, hf], ⟨a, rfl⟩, ?_⟩
        intro pool2 s b hfree c hc2
        obtain ⟨r, hr, hitem⟩ := tryFillBufferFrom_of_free c 0 pool2 s b hfree
        refine ⟨r.1, r.2, ?_, hitem⟩
        show PooledIter.tryPrev _ = _
        simp only [PooledIter.tryPrev, hc2, tryFillBuffer, hr]
  · intro herr
    cases hc : (q.iter.next).current with
    | none =>
      simp only [ThreadsafePooledIter.tryNext, hc] at herr
      cases herr
    | some a =>
      cases hf : tryFillBuffer a q.pool with
      | some r =>
        simp only [ThreadsafePooledIter.tryNext, hc, hf] at herr
        cases herr
      | none =>
        refine ⟨by simp only [ThreadsafePooledIter.tryNext, hc, hf], ⟨a, rfl⟩, ?_⟩
        intro pool2 s b hfree c hc2
        obtain ⟨r, hr, hitem⟩ := tryFillBufferFrom_of_free c 0 pool2 s b hfree
        refine ⟨r.1, r.2, ?_, hitem⟩
        show ThreadsafePooledIter.tryNext _ = _
        simp only [ThreadsafePooledIter.tryNext, hc2, tryFillBuffer, hr]
  · intro herr
    cases hc : (q.iter.prev).current with
    | none =>
      simp only [ThreadsafePooledIter.tryPrev, hc] at herr
      cases herr
    | some a =>
      cases hf : tryFillBuffer a q.pool with
      | some r =>
        simp only [ThreadsafePooledIter.tryPrev, hc, hf] at herr
        cases herr
      | none =>
        refine ⟨by simp only [ThreadsafePooledIter.tryPrev, hc, hf], ⟨a, rfl⟩, ?_⟩
        intro pool2 s b hfree c hc2
        obtain ⟨r, hr, hitem⟩ := tryFillBufferFrom_of_free c 0 pool2 s b hfree
        refine ⟨r.1, r.2, ?_, hitem⟩
        show ThreadsafePooledIter.tryPrev _ = _
        simp only [ThreadsafePooledIter.tryPrev, hc2, tryFillBuffer, hr]

theorem pooled_try_ops_not_atomic_witness :
    ((PooledIter.mk (TestIter.mk [5, 7, 9] none) [none]).tryNext.1
        = Except.error .outOfBuffers)
    ∧ ((PooledIter.mk (TestIter.mk [5, 7, 9] none) [none]).tryNext.2
        = PooledIter.mk ((TestIter.mk [5, 7, 9] none).next) [none]
      ∧ (∃ a, ((TestIter.mk [5, 7, 9] none).next).current = some a)
      ∧ ∀ (pool2 : List (Option Nat)) (s b : Nat), pool2[s]? = some (some b) →
          ∀ c, ((TestIter.mk [5, 7, 9] none).next.next).current = some c →
            ∃ pi pool3,
              (PooledIter.mk ((TestIter.mk [5, 7, 9] none).next) pool2).tryNext
                = (.ok (some pi),
                   PooledIter.mk ((TestIter.mk [5, 7, 9] none).next.next) pool3)
              ∧ pi.item = c) :=
  ⟨rfl,
    (pooled_try_ops_not_atomic (PooledIter.mk (TestIter.mk [5, 7, 9] none) [none])
      (ThreadsafePooledIter.mk (TestIter.mk [5, 7, 9] none) [none])).1 rfl⟩


/-! ### C1: a full forward sweep yields the sorted union -/

theorem TestIter.suffix_sorted {t : TestIter} (hwf : t.WFData) :
    t.suffix.Sorted (· < ·) := by
  rw [TestIter.suffix]
  cases t.cursor with
  | none => exact List.sorted_nil
  | some c => exact hwf.drop

theorem pending_nil_iff (m : MergingIter) :
    m.pending = [] ↔ ∀ t ∈ m.advanced, t.current = none := by
  rw [MergingIter.pending, List.join_eq_nil_iff]
  constructor
  · intro h t ht
    rw [TestIter.current_eq_head_suffix, List.head?_eq_none_iff]
    exact h _ (List.mem_map_of_mem _ ht)
  · intro h fl hfl
    obtain ⟨t, ht, rfl⟩ := List.mem_map.1 hfl
    rw [← List.head?_eq_none_iff, ← TestIter.current_eq_head_suffix]
    exact h t ht

/-- A successful smallest-key scan over a list of iterators picks the minimum
of all the remaining suffix entries. -/
theorem scan_min_of_suffixes (l : List TestIter) (hwf : ∀ t ∈ l, t.WFData)
    {j k : Nat} (h : scanBest (· < ·) (enumFrom 0 l) none = some (j, k)) :
    k ∈ (l.map TestIter.suffix).flatten
    ∧ ∀ x ∈ (l.map TestIter.suffix).flatten, k ≤ x := by
  obtain ⟨⟨tj, hgetj, hcurj⟩, hmin⟩ := scanSmallest_eq_some_spec h
  constructor
  · refine List.mem_join.2 ⟨tj.suffix, List.mem_map_of_mem _ (List.getElem?_mem hgetj), ?_⟩
    apply List.mem_of_mem_head?
    rw [← TestIter.current_eq_head_suffix]
    exact hcurj
  · intro x hx
    obtain ⟨fl, hfl, hxfl⟩ := List.mem_join.1 hx
    obtain ⟨t, ht, rfl⟩ := List.mem_map.1 hfl
    obtain ⟨i, hi, hgt⟩ := List.getElem_of_mem ht
    cases hh : t.suffix.head? with
    | none =>
      rw [List.head?_eq_none_iff.1 hh] at hxfl
      cases hxfl
    | some h0 =>
      have hcur : t.current = some h0 := by
        rw [TestIter.current_eq_head_suffix]
        exact hh
      have hk0 : k ≤ h0 :=
        (hmin i t h0 (by rw [List.getElem?_eq_getElem hi, hgt]) hcur).1
      exact le_trans hk0
        (sorted_head?_le (TestIter.suffix_sorted (hwf t ht)) hh x hxfl)

/-- Advancing the component at index `j`, whose current entry is `k`, removes
exactly one occurrence of `k` from the concatenated suffixes. -/
theorem pending_perm_cons (l : List TestIter) :
    ∀ (j : Nat) (t : TestIter) (k : Nat), l[j]? = some t → t.current = some k →
      ((l.map TestIter.suffix).flatten).Perm
        (k :: ((modifyAt TestIter.next j l).map TestIter.suffix).flatten) := by
  induction l with
  | nil =>
    intro j t k hget
    simp at hget
  | cons t0 rest ih =>
    intro j t k hget hcur
    cases j with
    | zero =>
      simp only [List.getElem?_cons_zero, Option.some.injEq] at hget
      subst hget
      rw [List.map_cons, List.flatten_cons,
        TestIter.suffix_next_of_current hcur]
      exact List.Perm.refl _
    | succ j =>
      rw [List.getElem?_cons_succ] at hget
      have hperm := ih j t k hget hcur
      rw [List.map_cons, List.flatten_cons]
      show (t0.suffix ++ _).Perm (k :: (t0.suffix ++ _))
      refine (List.Perm.append_left t0.suffix hperm).trans ?_
      exact List.perm_middle


theorem mem_modifyAt (f : TestIter → TestIter) :
    ∀ (j : Nat) (l : List TestIter) (t : TestIter), t ∈ modifyAt f j l →
      t ∈ l ∨ ∃ t0 ∈ l, t = f t0 := by
  intro j l
  induction l generalizing j with
  | nil =>
    intro t ht
    cases j <;> cases ht
  | cons t0 rest ih =>
    intro t ht
    cases j with
    | zero =>
      rcases List.mem_cons.1 ht with rfl | ht
      · exact Or.inr ⟨t0, List.mem_cons_self _ _, rfl⟩
      · exact Or.inl (List.mem_cons_of_mem _ ht)
    | succ j =>
      rcases List.mem_cons.1 ht with rfl | ht
      · exact Or.inl (List.mem_cons_self _ _)
      · rcases ih j t ht with h | ⟨t1, ht1, rfl⟩
        · exact Or.inl (List.mem_cons_of_mem _ h)
        · exact Or.inr ⟨t1, List.mem_cons_of_mem _ ht1, rfl⟩

theorem wf_advanced (m : MergingIter) (hwf : ∀ t ∈ m.iterators, t.WFData) :
    ∀ t ∈ m.advanced, t.WFData := by
  intro t ht
  rw [MergingIter.advanced] at ht
  cases hci : m.currentIter with
  | some j =>
    rw [hci] at ht
    rcases mem_modifyAt TestIter.next j m.iterators t ht with h | ⟨t0, ht0, rfl⟩
    · exact hwf t h
    · exact hwf t0 ht0
  | none =>
    rw [hci] at ht
    obtain ⟨t0, ht0, rfl⟩ := List.mem_map.1 ht
    exact hwf t0 ht0

/-- In the `Forwards` direction, `next()` advances (only the current component,
or all of them from the invalid state), rescans for the smallest, and yields
the new current entry. -/
theorem next_forwards (m : MergingIter) (hdir : m.direction = .Forwards) :
    (m.next).1 = (scanBest (· < ·) (enumFrom 0 m.advanced) none).map Prod.snd
    ∧ (m.next).2 = MergingIter.mk m.advanced
        ((scanBest (· < ·) (enumFrom 0 m.advanced) none).map Prod.fst) .Forwards := by
  obtain ⟨its, ci, dir⟩ := m
  cases dir with
  | Backwards => exact absurd hdir (by simp)
  | Forwards =>
    cases ci with
    | some j =>
      exact ⟨current_findSmallestIter
        (MergingIter.mk (modifyAt TestIter.next j its) (some j) .Forwards), rfl⟩
    | none =>
      exact ⟨current_findSmallestIter
        (MergingIter.mk (its.map TestIter.next) none .Forwards), rfl⟩


theorem suffix_next_reset (t : TestIter) : (t.reset.next).suffix = t.data := by
  show TestIter.suffix ⟨t.data, if 0 < t.data.length then some 0 else none⟩ = t.data
  cases hd : t.data with
  | nil => rfl
  | cons a l => simp [TestIter.suffix]

/-- After `reset`, the pending entries of the forward sweep are exactly all the
merged entries. -/
theorem pending_reset (m : MergingIter) : m.reset.pending = m.allKeys := by
  rw [MergingIter.pending, MergingIter.allKeys]
  congr 1
  show ((m.iterators.map TestIter.reset).map TestIter.next).map TestIter.suffix
      = m.iterators.map TestIter.data
  rw [List.map_map, List.map_map]
  refine List.map_congr_left fun t _ => ?_
  exact suffix_next_reset t

theorem wf_reset (m : MergingIter) (hwf : ∀ t ∈ m.iterators, t.WFData) :
    ∀ t ∈ m.reset.iterators, t.WFData := by
  intro t ht
  obtain ⟨t0, ht0, rfl⟩ := List.mem_map.1 ht
  exact hwf t0 ht0

/-- The forward sweep: from any `Forwards` state with `n` pending entries,
`n + 1` calls of `next()` yield the pending entries in sorted order followed by
the none-value. -/
theorem sweep_emits (n : Nat) :
    ∀ m : MergingIter, m.direction = .Forwards →
      (∀ t ∈ m.iterators, t.WFData) → (m.pending).length = n →
      ∃ out : List Nat,
        (emitNexts (n + 1) m).1 = out.map some ++ [none]
        ∧ out.Sorted (· ≤ ·) ∧ out.Perm m.pending := by
  induction n with
  | zero =>
    intro m hdir hwf hlen
    have hpnil : m.pending = [] := List.length_eq_zero.1 hlen
    obtain ⟨h1, h2⟩ := next_forwards m hdir
    have hscan : scanBest (· < ·) (enumFrom 0 m.advanced) none = none :=
      (scanSmallest_eq_none_iff _).2 ((pending_nil_iff m).1 hpnil)
    refine ⟨[], ?_, List.sorted_nil, by rw [hpnil]⟩
    show (m.next).1 :: (emitNexts 0 (m.next).2).1 = [none]
    rw [h1, hscan]
    rfl
  | succ n ih =>
    intro m hdir hwf hlen
    obtain ⟨h1, h2⟩ := next_forwards m hdir
    cases hscan : scanBest (· < ·) (enumFrom 0 m.advanced) none with
    | none =>
      exfalso
      have hnil := (pending_nil_iff m).2 ((scanSmallest_eq_none_iff _).1 hscan)
      rw [hnil] at hlen
      cases hlen
    | some e =>
      obtain ⟨j, k⟩ := e
      obtain ⟨⟨tj, hgetj, hcurj⟩, -⟩ := scanSmallest_eq_some_spec hscan
      have hwfadv : ∀ t ∈ m.advanced, t.WFData := wf_advanced m hwf
      have hmin := scan_min_of_suffixes m.advanced hwfadv hscan
      have hm2 : (m.next).2
          = MergingIter.mk m.advanced (some j) .Forwards := by
        rw [h2, hscan]
        rfl
      have hm2adv : ((m.next).2).advanced = modifyAt TestIter.next j m.advanced := by
        rw [hm2]
        rfl
      have hp2 : ((m.next).2).pending
          = ((modifyAt TestIter.next j m.advanced).map TestIter.suffix).flatten := by
        simp only [MergingIter.pending, hm2adv]
      have hp0 : m.pending = (m.advanced.map TestIter.suffix).flatten := rfl
      have hpdperm : (m.pending).Perm (k :: ((m.next).2).pending) := by
        rw [hp0, hp2]
        exact pending_perm_cons m.advanced j tj k hgetj hcurj
      have hlen2 : (((m.next).2).pending).length = n := by
        have := hpdperm.length_eq
        rw [hlen] at this
        simp only [List.length_cons] at this
        omega
      have hdir2 : ((m.next).2).direction = .Forwards := by
        rw [hm2]
      have hwf2 : ∀ t ∈ ((m.next).2).iterators, t.WFData := by
        rw [hm2]
        exact hwfadv
      obtain ⟨out2, hout2, hsort2, hperm2⟩ := ih ((m.next).2) hdir2 hwf2 hlen2
      refine ⟨k :: out2, ?_, ?_, ?_⟩
      · show (m.next).1 :: (emitNexts (n + 1) (m.next).2).1 = _
        rw [h1, hscan, hout2]
        rfl
      · refine List.sorted_cons.2 ⟨?_, hsort2⟩
        intro b hb
        have hbpend : b ∈ ((m.next).2).pending := hperm2.mem_iff.1 hb
        have hbpend0 : b ∈ m.pending := hpdperm.mem_iff.2 (List.mem_cons_of_mem _ hbpend)
        exact hmin.2 b hbpend0
      · exact (hperm2.cons k).trans hpdperm.symm

/-- **C1**: from `reset()`, repeatedly calling `next()` on a merging iterator
over sorted duplicate-free component sequences yields exactly the sorted
multiset union of all component entries in ascending order, and then the
none-value. -/
theorem merging_reset_nexts_sorted_union (m : MergingIter)
    (hwf : ∀ t ∈ m.iterators, t.WFData) :
    ∃ out : List Nat,
      (emitNexts (m.allKeys.length + 1) m.reset).1 = out.map some ++ [none]
      ∧ out.Sorted (· ≤ ·) ∧ out.Perm m.allKeys := by
  have hpend : m.reset.pending = m.allKeys := pending_reset m
  have hlen : (m.reset.pending).length = m.allKeys.length := by rw [hpend]
  obtain ⟨out, hout, hsort, hperm⟩ :=
    sweep_emits m.allKeys.length m.reset rfl (wf_reset m hwf) hlen
  refine ⟨out, hout, hsort, ?_⟩
  rw [← hpend]
  exact hperm

theorem merging_reset_nexts_sorted_union_witness :
    ∃ out : List Nat,
      (emitNexts (sampleMerging.allKeys.length + 1) sampleMerging.reset).1
        = out.map some ++ [none]
      ∧ out.Sorted (· ≤ ·) ∧ out.Perm sampleMerging.allKeys :=
  merging_reset_nexts_sorted_union sampleMerging
    (fun t ht => by
      rcases List.mem_cons.1 ht with rfl | ht2
      · exact (by decide : List.Sorted (· < ·) [1, 3])
      · rcases List.mem_cons.1 ht2 with rfl | ht3
        · exact (by decide : List.Sorted (· < ·) [2])
        · cases ht3)


/-! ### Ordering facts about sorted component data -/

theorem sorted_lt_of_mem_take {l : List Nat} (hs : l.Sorted (· < ·))
    {c : Nat} (hc : c < l.length) {x : Nat} (hx : x ∈ l.take c) : x < l[c] := by
  obtain ⟨i, hm, rfl⟩ := List.mem_take_iff_getElem.1 hx
  have hic : i < c := (lt_min_iff.1 hm).1
  exact List.pairwise_iff_getElem.1 hs i c (by omega) hc hic

theorem sorted_lt_of_mem_drop {l : List Nat} (hs : l.Sorted (· < ·))
    {c : Nat} (hc : c < l.length) {x : Nat} (hx : x ∈ l.drop (c + 1)) : l[c] < x := by
  obtain ⟨i, hm, rfl⟩ := List.mem_drop_iff_getElem.1 hx
  exact List.pairwise_iff_getElem.1 hs c (c + 1 + i) hc (by omega) (by omega)

theorem sorted_getElem_zero_le {l : List Nat} (hs : l.Sorted (· < ·))
    (h0 : 0 < l.length) {x : Nat} (hx : x ∈ l) : l[0] ≤ x := by
  obtain ⟨i, hi, rfl⟩ := List.getElem_of_mem hx
  cases i with
  | zero => exact le_refl _
  | succ i => exact le_of_lt (List.pairwise_iff_getElem.1 hs 0 (i + 1) h0 hi (by omega))

theorem sorted_le_getElem_last {l : List Nat} (hs : l.Sorted (· < ·))
    (h0 : 0 < l.length) {x : Nat} (hx : x ∈ l) : x ≤ l[l.length - 1] := by
  obtain ⟨i, hi, rfl⟩ := List.getElem_of_mem hx
  rcases Nat.eq_or_lt_of_le (Nat.le_sub_one_of_lt hi) with heq | hlt
  · subst heq
    exact le_refl _
  · exact le_of_lt (List.pairwise_iff_getElem.1 hs i (l.length - 1) hi (by omega) hlt)

/-- Entries strictly before the landing index of `seek b` are `< b`. -/
theorem mem_take_findIdx_lt {l : List Nat} {b x : Nat}
    (hx : x ∈ l.take (l.findIdx fun y => b ≤ y)) : x < b := by
  obtain ⟨i, hm, rfl⟩ := List.mem_take_iff_getElem.1 hx
  have hif : i < l.findIdx fun y => b ≤ y := (lt_min_iff.1 hm).1
  have := List.not_of_lt_findIdx hif
  simp only [decide_eq_false_iff_not, not_le] at this
  exact this

/-- If `seek b` exhausts the iterator, every entry is `< b`. -/
theorem all_lt_of_findIdx_ge {l : List Nat} {b : Nat}
    (h : l.length ≤ l.findIdx fun y => b ≤ y) : ∀ x ∈ l, x < b := by
  intro x hx
  by_contra hge
  have : (l.findIdx fun y => b ≤ y) < l.length :=
    List.findIdx_lt_length_of_exists ⟨x, hx, by simpa using not_lt.1 hge⟩
  omega

/-- Entries at or after the landing index of `seek b` are `≥ b` (sorted data). -/
theorem sorted_mem_drop_findIdx_ge {l : List Nat} (hs : l.Sorted (· < ·)) {b x : Nat}
    (hx : x ∈ l.drop (l.findIdx fun y => b ≤ y)) : b ≤ x := by
  obtain ⟨i, hm, rfl⟩ := List.mem_drop_iff_getElem.1 hx
  have hjlt : (l.findIdx fun y => b ≤ y) < l.length := by omega
  have hb : b ≤ l[l.findIdx fun y => b ≤ y] := by
    have := List.findIdx_getElem (w := hjlt)
    simpa using this
  rcases Nat.eq_zero_or_pos i with rfl | hpos
  · simpa using hb
  · refine le_trans hb (le_of_lt ?_)
    exact List.pairwise_iff_getElem.1 hs (l.findIdx fun y => b ≤ y)
      ((l.findIdx fun y => b ≤ y) + i) hjlt (by omega) (by omega)


/-! ### Per-operation component facts -/

theorem TestIter.current_some_elim {t : TestIter} {k : Nat} (h : t.current = some k) :
    ∃ c, t.cursor = some c ∧ ∃ hlt : c < t.data.length, t.data[c] = k := by
  cases hc : t.cursor with
  | none => rw [TestIter.current_of_cursor_none hc] at h; cases h
  | some c =>
    rw [TestIter.current_of_cursor_some hc] at h
    have hlt : c < t.data.length := by
      by_contra hge
      rw [List.getElem?_eq_none (le_of_not_lt hge)] at h
      cases h
    rw [List.getElem?_eq_getElem hlt] at h
    injection h with h
    exact ⟨c, rfl, hlt, h⟩

theorem TestIter.current_of_cursor_lt {t : TestIter} {c : Nat} (hc : t.cursor = some c)
    (hlt : c < t.data.length) : t.current = some (t.data[c]) := by
  rw [TestIter.current_of_cursor_some hc, List.getElem?_eq_getElem hlt]

theorem TestIter.cursor_none_of_current_none {t : TestIter}
    (hb : ∀ ci, t.cursor = some ci → ci < t.data.length) (h : t.current = none) :
    t.cursor = none := by
  cases hc : t.cursor with
  | none => rfl
  | some c =>
    rw [TestIter.current_of_cursor_lt hc (hb c hc)] at h
    cases h

theorem TestIter.seek_cursor_bound (t : TestIter) (b : Nat) :
    ∀ c, (t.seek b).cursor = some c → c < t.data.length := by
  intro c hc
  simp only [TestIter.seek] at hc
  split at hc
  · injection hc with hc
    omega
  · cases hc

theorem TestIter.seekBefore_cursor_bound (t : TestIter) (b : Nat) :
    ∀ c, (t.seekBefore b).cursor = some c → c < t.data.length := by
  intro c hc
  simp only [TestIter.seekBefore] at hc
  split at hc
  · cases hc
  · injection hc with hc
    have hle : (t.data.findIdx fun y => b ≤ y) ≤ t.data.length :=
      List.findIdx_le_length _
    omega

theorem TestIter.next_cursor_bound (t : TestIter) :
    ∀ c, t.next.cursor = some c → c < t.data.length := by
  intro c hc
  simp only [TestIter.next] at hc
  split at hc
  · injection hc with hc
    omega
  · cases hc

theorem TestIter.prev_cursor_bound (t : TestIter)
    (hb : ∀ ci, t.cursor = some ci → ci < t.data.length) :
    ∀ c, t.prev.cursor = some c → c < t.data.length := by
  intro c hc
  cases hcur : t.cursor with
  | none =>
    simp only [TestIter.prev, hcur] at hc
    split at hc
    · cases hc
    · injection hc with hc
      omega
  | some c0 =>
    have hc0 := hb c0 hcur
    simp only [TestIter.prev, hcur] at hc
    split at hc
    · cases hc
    · injection hc with hc
      omega

theorem catchUpForwards_cursor_bound (t : TestIter) (b : Nat) :
    ∀ c, (MergingIter.catchUpForwards b t).cursor = some c → c < t.data.length := by
  intro c hc
  cases hcur : (t.seek b).current with
  | none =>
    simp only [MergingIter.catchUpForwards, hcur] at hc
    exact TestIter.seek_cursor_bound t b c hc
  | some k1 =>
    simp only [MergingIter.catchUpForwards, hcur] at hc
    by_cases heq : b = k1
    · rw [if_pos heq] at hc
      have := TestIter.next_cursor_bound (t.seek b) c hc
      simpa using this
    · rw [if_neg heq] at hc
      exact TestIter.seek_cursor_bound t b c hc

/-- Landing facts of `seek b`, relative to the bound `b`. -/
theorem TestIter.seek_facts (t : TestIter) (b : Nat) :
    (∀ ki, (t.seek b).current = some ki → b ≤ ki)
    ∧ (∀ ci, (t.seek b).cursor = some ci → ∀ x ∈ t.data.take ci, x < b)
    ∧ ((t.seek b).cursor = none → ∀ x ∈ t.data, x < b) := by
  refine ⟨?_, ?_, ?_⟩
  · intro ki hki
    obtain ⟨c, hc, hlt, hk⟩ := TestIter.current_some_elim hki
    simp only [TestIter.seek] at hc hlt hk
    split at hc
    · injection hc with hc
      subst hc
      subst hk
      have h2 := @List.findIdx_getElem _ (fun y => decide (b ≤ y)) t.data
        (by simpa using hlt)
      simpa using h2
    · cases hc
  · intro ci hci
    simp only [TestIter.seek] at hci
    split at hci
    · injection hci with hci
      subst hci
      exact fun x hx => mem_take_findIdx_lt hx
    · cases hci
  · intro hnone
    simp only [TestIter.seek] at hnone
    split at hnone
    · cases hnone
    · rename_i hge
      exact all_lt_of_findIdx_ge (le_of_not_lt hge)

/-- Landing facts of `seek_before b`, relative to the bound `b` (sorted data). -/
theorem TestIter.seekBefore_facts (t : TestIter) (hwf : t.WFData) (b : Nat) :
    (∀ ki, (t.seekBefore b).current = some ki → ki < b)
    ∧ (∀ ci, (t.seekBefore b).cursor = some ci → ∀ x ∈ t.data.drop (ci + 1), b ≤ x)
    ∧ ((t.seekBefore b).cursor = none → ∀ x ∈ t.data, b ≤ x) := by
  refine ⟨?_, ?_, ?_⟩
  · intro ki hki
    obtain ⟨c, hc, hlt, hk⟩ := TestIter.current_some_elim hki
    simp only [TestIter.seekBefore] at hc hlt hk
    split at hc
    · cases hc
    · rename_i hne
      injection hc with hc
      subst hk
      have hcf : c < t.data.findIdx fun y => b ≤ y := by omega
      have h2 := @List.not_of_lt_findIdx _ (fun y => decide (b ≤ y)) t.data c hcf
      simp only [decide_eq_false_iff_not, not_le] at h2
      exact h2
  · intro ci hci
    simp only [TestIter.seekBefore] at hci
    split at hci
    · cases hci
    · rename_i hne
      injection hci with hci
      intro x hx
      refine sorted_mem_drop_findIdx_ge hwf (b := b) ?_
      have h3 : ci + 1 = t.data.findIdx fun y => b ≤ y := by omega
      rw [h3] at hx
      exact hx
  · intro hnone
    simp only [TestIter.seekBefore] at hnone
    split at hnone
    · rename_i h0
      intro x hx
      have hlen : 0 < t.data.length := List.length_pos_of_mem hx
      have hflt : (t.data.findIdx fun y => b ≤ y) < t.data.length := by omega
      have h2 := @List.findIdx_getElem _ (fun y => decide (b ≤ y)) t.data hflt
      simp only [decide_eq_true_eq] at h2
      have hb : b ≤ t.data[0] := by
        have h4 : t.data[t.data.findIdx fun y => b ≤ y] = t.data[0] := by
          congr 1
        rw [h4] at h2
        exact h2
      exact le_trans hb (sorted_getElem_zero_le hwf hlen hx)
    · cases hnone


/-- Facts established by the `switch_to_forwards` per-iterator catch-up
(`seek(current_key)` plus one `next()` on an equal landing), relative to the
switch key `b`: the result's current entry is `≥ b`, its passed prefix is
`≤ b`, and it exhausts only if all entries are `≤ b`. -/
theorem catchUpForwards_facts (t : TestIter) (hwf : t.WFData) (b : Nat) :
    (∀ ki, (MergingIter.catchUpForwards b t).current = some ki → b ≤ ki)
    ∧ (∀ ci, (MergingIter.catchUpForwards b t).cursor = some ci →
        ∀ x ∈ t.data.take ci, x ≤ b)
    ∧ ((MergingIter.catchUpForwards b t).cursor = none → ∀ x ∈ t.data, x ≤ b) := by
  obtain ⟨hs1, hs2, hs3⟩ := TestIter.seek_facts t b
  cases hcur : (t.seek b).current with
  | none =>
    have hcnone : (t.seek b).cursor = none := by
      refine TestIter.cursor_none_of_current_none ?_ hcur
      intro ci hci
      exact TestIter.seek_cursor_bound t b ci hci
    refine ⟨?_, ?_, ?_⟩
    · intro ki hki
      simp only [MergingIter.catchUpForwards, hcur] at hki
      cases hki
    · intro ci hci
      simp only [MergingIter.catchUpForwards, hcur, hcnone] at hci
      cases hci
    · intro _ x hx
      exact le_of_lt (hs3 hcnone x hx)
  | some k1 =>
    obtain ⟨c, hc, hlt, hk⟩ := TestIter.current_some_elim hcur
    have hltd : c < t.data.length := by simpa using hlt
    have hck : t.data[c] = k1 := hk
    by_cases heq : b = k1
    · have hbc : t.data[c] = b := by rw [hck]; exact heq.symm
      refine ⟨?_, ?_, ?_⟩
      · intro ki hki
        simp only [MergingIter.catchUpForwards, hcur, if_pos heq] at hki
        obtain ⟨c2, hc2, hlt2, hk2⟩ := TestIter.current_some_elim hki
        simp only [TestIter.next, TestIter.data_seek, hc] at hc2 hlt2 hk2
        split at hc2
        · injection hc2 with hc2
          subst hc2
          have hlt2d : c + 1 < t.data.length := by simpa using hlt2
          have hk2d : t.data[c + 1] = ki := hk2
          have hstep : t.data[c] < t.data[c + 1] :=
            List.pairwise_iff_getElem.1 hwf c (c + 1) hltd hlt2d (by omega)
          rw [hbc, hk2d] at hstep
          exact le_of_lt hstep
        · cases hc2
      · intro ci hci
        simp only [MergingIter.catchUpForwards, hcur, if_pos heq] at hci
        simp only [TestIter.next, TestIter.data_seek, hc] at hci
        split at hci
        · injection hci with hci
          subst hci
          intro x hx
          rw [List.take_succ] at hx
          rcases List.mem_append.1 hx with hx | hx
          · exact le_of_lt (hs2 c hc x hx)
          · rw [List.getElem?_eq_getElem hltd] at hx
            simp only [Option.toList_some, List.mem_singleton] at hx
            subst hx
            rw [hbc]
        · cases hci
      · intro hnone
        simp only [MergingIter.catchUpForwards, hcur, if_pos heq] at hnone
        simp only [TestIter.next, TestIter.data_seek, hc] at hnone
        split at hnone
        · cases hnone
        · rename_i hge
          intro x hx
          have hlast : c = t.data.length - 1 := by omega
          have h5 := sorted_le_getElem_last hwf (by omega) hx
          have h6 : t.data[t.data.length - 1] = b := by
            rw [← hbc]
            congr 1
            omega
          rw [h6] at h5
          exact h5
    · refine ⟨?_, ?_, ?_⟩
      · intro ki hki
        simp only [MergingIter.catchUpForwards, hcur, if_neg heq] at hki
        injection hki with hki
        subst hki
        exact hs1 k1 hcur
      · intro ci hci
        simp only [MergingIter.catchUpForwards, hcur, if_neg heq] at hci
        intro x hx
        exact le_of_lt (hs2 ci hci x hx)
      · intro hnone
        simp only [MergingIter.catchUpForwards, hcur, if_neg heq] at hnone
        intro x hx
        exact le_of_lt (hs3 hnone x hx)


theorem data_catchUpForwards (b : Nat) (t : TestIter) :
    (MergingIter.catchUpForwards b t).data = t.data := by
  cases h : (t.seek b).current with
  | none => simp [MergingIter.catchUpForwards, h]
  | some k1 =>
    simp only [MergingIter.catchUpForwards, h]
    split
    · rfl
    · rfl

theorem mem_mapOthers_elim (f : TestIter → TestIter) (j : Nat) (l : List TestIter)
    (t : TestIter) (ht : t ∈ mapOthers f j l) :
    l[j]? = some t ∨ ∃ t0 ∈ l, t = f t0 := by
  obtain ⟨i, hi, hgt⟩ := List.getElem_of_mem ht
  have hq : (mapOthers f j l)[i]? = some t := by
    rw [List.getElem?_eq_getElem hi, hgt]
  rw [getElem?_mapOthers] at hq
  by_cases hij : i = j
  · rw [if_pos hij] at hq
    subst hij
    exact Or.inl hq
  · rw [if_neg hij] at hq
    obtain ⟨t0, hget0, rfl⟩ := Option.map_eq_some'.1 hq
    exact Or.inr ⟨t0, List.getElem?_mem hget0, rfl⟩

theorem mem_modifyAt_elim (f : TestIter → TestIter) (j : Nat) (l : List TestIter)
    (t : TestIter) (ht : t ∈ modifyAt f j l) :
    (∃ t0, l[j]? = some t0 ∧ t = f t0) ∨ t ∈ l := by
  obtain ⟨i, hi, hgt⟩ := List.getElem_of_mem ht
  have hq : (modifyAt f j l)[i]? = some t := by
    rw [List.getElem?_eq_getElem hi, hgt]
  rw [getElem?_modifyAt] at hq
  by_cases hij : i = j
  · rw [if_pos hij] at hq
    subst hij
    obtain ⟨t0, hget0, rfl⟩ := Option.map_eq_some'.1 hq
    exact Or.inl ⟨t0, hget0, rfl⟩
  · rw [if_neg hij] at hq
    exact Or.inr (List.getElem?_mem hq)

/-- For sorted data and an in-bounds cursor, every entry is either in the
passed prefix or at/after the cursor entry. -/
theorem sorted_mem_take_or_ge {l : List Nat} (hs : l.Sorted (· < ·))
    {c : Nat} (hc : c < l.length) {x : Nat} (hx : x ∈ l) :
    x ∈ l.take c ∨ l[c] ≤ x := by
  obtain ⟨p, hp, rfl⟩ := List.getElem_of_mem hx
  by_cases hpc : p < c
  · exact Or.inl (List.mem_take_iff_getElem.2 ⟨p, by omega, rfl⟩)
  · right
    rcases Nat.eq_or_lt_of_le (le_of_not_lt hpc) with heq | hlt
    · subst heq
      exact le_refl _
    · exact le_of_lt (List.pairwise_iff_getElem.1 hs c p hc hp hlt)

/-- Mirror of `sorted_mem_take_or_ge` for backward traversal. -/
theorem sorted_mem_drop_or_le {l : List Nat} (hs : l.Sorted (· < ·))
    {c : Nat} (hc : c < l.length) {x : Nat} (hx : x ∈ l) :
    x ∈ l.drop (c + 1) ∨ x ≤ l[c] := by
  obtain ⟨p, hp, rfl⟩ := List.getElem_of_mem hx
  by_cases hpc : c < p
  · left
    refine List.mem_drop_iff_getElem.2 ⟨p - (c + 1), by omega, ?_⟩
    congr 1
    omega
  · right
    rcases Nat.eq_or_lt_of_le (le_of_not_lt hpc) with heq | hlt
    · subst heq
      exact le_refl _
    · exact le_of_lt (List.pairwise_iff_getElem.1 hs p c hp hc hlt)

/-- Facts after advancing the current component one step forwards past its
current entry `k0`: the new current is `≥ k0`, the passed prefix is `≤ k0`,
and exhaustion means every entry is `≤ k0`. -/
theorem next_after_current_facts (tj : TestIter) (hwf : tj.WFData) {k0 : Nat}
    (hcurj : tj.current = some k0) :
    (∀ ki, tj.next.current = some ki → k0 ≤ ki)
    ∧ (∀ ci, tj.next.cursor = some ci → ∀ x ∈ tj.data.take ci, x ≤ k0)
    ∧ (tj.next.cursor = none → ∀ x ∈ tj.data, x ≤ k0) := by
  obtain ⟨c, hc, hlt, hk⟩ := TestIter.current_some_elim hcurj
  refine ⟨?_, ?_, ?_⟩
  · intro ki hki
    obtain ⟨c2, hc2, hlt2, hk2⟩ := TestIter.current_some_elim hki
    simp only [TestIter.next, TestIter.data_next, hc] at hc2 hlt2 hk2
    split at hc2
    · injection hc2 with hc2
      subst hc2
      have hstep : tj.data[c] < tj.data[c + 1] :=
        List.pairwise_iff_getElem.1 hwf c (c + 1) hlt hlt2 (by omega)
      rw [hk, hk2] at hstep
      exact le_of_lt hstep
    · cases hc2
  · intro ci hci
    simp only [TestIter.next, hc] at hci
    split at hci
    · injection hci with hci
      subst hci
      intro x hx
      rw [List.take_succ] at hx
      rcases List.mem_append.1 hx with hx | hx
      · have := sorted_lt_of_mem_take hwf hlt hx
        rw [hk] at this
        exact le_of_lt this
      · rw [List.getElem?_eq_getElem hlt] at hx
        simp only [Option.toList_some, List.mem_singleton] at hx
        subst hx
        rw [hk]
    · cases hci
  · intro hnone
    simp only [TestIter.next, hc] at hnone
    split at hnone
    · cases hnone
    · rename_i hge
      intro x hx
      have h5 := sorted_le_getElem_last hwf (by omega) hx
      have h6 : tj.data[tj.data.length - 1] = k0 := by
        rw [← hk]
        congr 1
        omega
      rw [h6] at h5
      exact h5

/-- Mirror of `next_after_current_facts` for `prev`. -/
theorem prev_after_current_facts (tj : TestIter) (hwf : tj.WFData) {k0 : Nat}
    (hcurj : tj.current = some k0) :
    (∀ ki, tj.prev.current = some ki → ki ≤ k0)
    ∧ (∀ ci, tj.prev.cursor = some ci → ∀ x ∈ tj.data.drop (ci + 1), k0 ≤ x)
    ∧ (tj.prev.cursor = none → ∀ x ∈ tj.data, k0 ≤ x) := by
  obtain ⟨c, hc, hlt, hk⟩ := TestIter.current_some_elim hcurj
  refine ⟨?_, ?_, ?_⟩
  · intro ki hki
    obtain ⟨c2, hc2, hlt2, hk2⟩ := TestIter.current_some_elim hki
    simp only [TestIter.prev, TestIter.data_prev, hc] at hc2 hlt2 hk2
    split at hc2
    · cases hc2
    · rename_i hne
      injection hc2 with hc2
      subst hc2
      have hstep : tj.data[c - 1] < tj.data[c] :=
        List.pairwise_iff_getElem.1 hwf (c - 1) c hlt2 hlt (by omega)
      rw [hk, hk2] at hstep
      exact le_of_lt hstep
  · intro ci hci
    simp only [TestIter.prev, hc] at hci
    split at hci
    · cases hci
    · rename_i hne
      injection hci with hci
      subst hci
      intro x hx
      have hdr : tj.data.drop (c - 1 + 1) = tj.data.drop c := by
        congr 1
        omega
      rw [hdr] at hx
      have hsplit : x ∈ tj.data.drop (c + 1) ∨ x = tj.data[c] := by
        rw [List.drop_eq_getElem_cons hlt] at hx
        rcases List.mem_cons.1 hx with heq | hx
        · exact Or.inr heq
        · exact Or.inl hx
      rcases hsplit with hx | rfl
      · have := sorted_lt_of_mem_drop hwf hlt hx
        rw [hk] at this
        exact le_of_lt this
      · rw [hk]
  · intro hnone
    simp only [TestIter.prev, hc] at hnone
    split at hnone
    · rename_i h0
      intro x hx
      have hc0 : c = 0 := h0
      have hlen0 : 0 < tj.data.length := by omega
      have h5 := sorted_getElem_zero_le hwf hlen0 hx
      have h6 : tj.data[0] = k0 := by
        rw [← hk]
        congr 1
        omega
      rw [h6] at h5
      exact h5
    · cases hnone


/-! ### Passed-entry bookkeeping -/

theorem TestIter.passedFwd_of_cursor_some {t : TestIter} {c : Nat}
    (h : t.cursor = some c) : t.passedFwd = t.data.take c := by
  rw [TestIter.passedFwd, h]

theorem TestIter.passedFwd_of_cursor_none {t : TestIter}
    (h : t.cursor = none) : t.passedFwd = t.data := by
  rw [TestIter.passedFwd, h]

theorem TestIter.passedBwd_of_cursor_some {t : TestIter} {c : Nat}
    (h : t.cursor = some c) : t.passedBwd = t.data.drop (c + 1) := by
  rw [TestIter.passedBwd, h]

theorem TestIter.passedBwd_of_cursor_none {t : TestIter}
    (h : t.cursor = none) : t.passedBwd = t.data := by
  rw [TestIter.passedBwd, h]

theorem map_data_mapOthers (f : TestIter → TestIter)
    (hf : ∀ t, (f t).data = t.data) (j : Nat) (l : List TestIter) :
    (mapOthers f j l).map TestIter.data = l.map TestIter.data := by
  refine List.ext_getElem? fun i => ?_
  rw [List.getElem?_map, List.getElem?_map, getElem?_mapOthers]
  by_cases hij : i = j
  · rw [if_pos hij]
  · rw [if_neg hij]
    cases l[i]? with
    | none => rfl
    | some t => simp [hf]

theorem map_data_modifyAt (f : TestIter → TestIter)
    (hf : ∀ t, (f t).data = t.data) (j : Nat) (l : List TestIter) :
    (modifyAt f j l).map TestIter.data = l.map TestIter.data := by
  refine List.ext_getElem? fun i => ?_
  rw [List.getElem?_map, List.getElem?_map, getElem?_modifyAt]
  by_cases hij : i = j
  · rw [if_pos hij]
    cases l[i]? with
    | none => rfl
    | some t => simp [hf]
  · rw [if_neg hij]

theorem map_data_map (f : TestIter → TestIter)
    (hf : ∀ t, (f t).data = t.data) (l : List TestIter) :
    (l.map f).map TestIter.data = l.map TestIter.data := by
  rw [List.map_map]
  exact List.map_congr_left fun t _ => hf t

/-- Membership in the flattened data respects data-preserving rewrites of the
component list. -/
theorem mem_flatten_data_of_map_eq {l l2 : List TestIter}
    (hdata : l2.map TestIter.data = l.map TestIter.data) {x : Nat} :
    x ∈ (l.map TestIter.data).flatten ↔ x ∈ (l2.map TestIter.data).flatten := by
  rw [hdata]

/-- A valid cursor that is in bounds makes the iterator's `current` valid. -/
theorem TestIter.current_isSome_of_bound {t : TestIter} {c : Nat}
    (hc : t.cursor = some c) (hlt : c < t.data.length) :
    t.current = some t.data[c] := by
  rw [TestIter.current, hc]
  simp [List.getElem?_eq_getElem hlt]

/-- With in-bounds cursors, an all-invalid `current` scan forces every cursor
to be `none`. -/
theorem cursors_none_of_currents_none {l : List TestIter}
    (hb : cursorsInBounds l) (h : ∀ t ∈ l, t.current = none) :
    ∀ t ∈ l, t.cursor = none := by
  intro t ht
  cases hc : t.cursor with
  | none => rfl
  | some c =>
    have hlt := hb t ht c hc
    have := TestIter.current_isSome_of_bound hc hlt
    rw [h t ht] at this
    cases this

/-- Master lemma for the `Forwards` invariant of any state whose
`current_iter` was just recomputed by `find_smallest_iter`: in-bounds cursors
plus "every passed entry is at or below every current entry" suffice. -/
theorem inv_scanS (l : List TestIter) (hbound : cursorsInBounds l)
    (hpc : ∀ t ∈ l, ∀ x ∈ t.passedFwd, ∀ t2 ∈ l, ∀ ki, t2.current = some ki → x ≤ ki) :
    (MergingIter.mk l ((scanBest (· < ·) (enumFrom 0 l) none).map Prod.fst)
      .Forwards).Inv := by
  refine ⟨hbound, ?_⟩
  cases hscan : scanBest (· < ·) (enumFrom 0 l) none with
  | none =>
    show ∀ t ∈ l, t.cursor = none
    exact cursors_none_of_currents_none hbound
      ((scanSmallest_eq_none_iff l).1 hscan)
  | some e =>
    obtain ⟨j, k⟩ := e
    obtain ⟨⟨tj, hgetj, hcurj⟩, hmin⟩ := scanSmallest_eq_some_spec hscan
    show ∃ tj k, l[j]? = some tj ∧ tj.current = some k ∧ ∀ t ∈ l, _ ∧ _
    refine ⟨tj, k, hgetj, hcurj, fun t ht => ⟨?_, ?_⟩⟩
    · intro ki hki
      obtain ⟨i, hi, rfl⟩ := List.getElem_of_mem ht
      exact (hmin i _ _ (List.getElem?_eq_getElem hi) hki).1
    · intro x hx
      exact hpc t ht x hx tj (List.getElem?_mem hgetj) k hcurj

/-- Mirror of `inv_scanS` for `find_largest_iter` and the `Backwards`
invariant. -/
theorem inv_scanL (l : List TestIter) (hbound : cursorsInBounds l)
    (hpc : ∀ t ∈ l, ∀ x ∈ t.passedBwd, ∀ t2 ∈ l, ∀ ki, t2.current = some ki → ki ≤ x) :
    (MergingIter.mk l ((scanBest (· > ·) (enumFrom 0 l).reverse none).map Prod.fst)
      .Backwards).Inv := by
  refine ⟨hbound, ?_⟩
  cases hscan : scanBest (· > ·) (enumFrom 0 l).reverse none with
  | none =>
    show ∀ t ∈ l, t.cursor = none
    exact cursors_none_of_currents_none hbound
      ((scanLargest_eq_none_iff l).1 hscan)
  | some e =>
    obtain ⟨j, k⟩ := e
    obtain ⟨⟨tj, hgetj, hcurj⟩, hmax⟩ := scanLargest_eq_some_spec hscan
    show ∃ tj k, l[j]? = some tj ∧ tj.current = some k ∧ ∀ t ∈ l, _ ∧ _
    refine ⟨tj, k, hgetj, hcurj, fun t ht => ⟨?_, ?_⟩⟩
    · intro ki hki
      obtain ⟨i, hi, rfl⟩ := List.getElem_of_mem ht
      exact (hmax i _ _ (List.getElem?_eq_getElem hi) hki).1
    · intro x hx
      exact hpc t ht x hx tj (List.getElem?_mem hgetj) k hcurj


/-! ### Per-operation passed/current facts in passed-list form -/

theorem passedFwd_le_current {t : TestIter} (hwf : t.WFData) {k0 : Nat}
    (hcur : t.current = some k0) : ∀ x ∈ t.passedFwd, x ≤ k0 := by
  obtain ⟨c, hc, hlt, hk⟩ := TestIter.current_some_elim hcur
  rw [TestIter.passedFwd_of_cursor_some hc]
  intro x hx
  have := sorted_lt_of_mem_take hwf hlt hx
  rw [hk] at this
  exact le_of_lt this

theorem passedBwd_ge_current {t : TestIter} (hwf : t.WFData) {k0 : Nat}
    (hcur : t.current = some k0) : ∀ x ∈ t.passedBwd, k0 ≤ x := by
  obtain ⟨c, hc, hlt, hk⟩ := TestIter.current_some_elim hcur
  rw [TestIter.passedBwd_of_cursor_some hc]
  intro x hx
  have := sorted_lt_of_mem_drop hwf hlt hx
  rw [hk] at this
  exact le_of_lt this

theorem passedFwd_next_le {t : TestIter} (hwf : t.WFData) {k0 : Nat}
    (hcur : t.current = some k0) : ∀ x ∈ t.next.passedFwd, x ≤ k0 := by
  obtain ⟨h1, h2, h3⟩ := next_after_current_facts t hwf hcur
  intro x hx
  cases hc : t.next.cursor with
  | some c =>
    rw [TestIter.passedFwd_of_cursor_some hc, TestIter.data_next] at hx
    exact h2 c hc x hx
  | none =>
    rw [TestIter.passedFwd_of_cursor_none hc, TestIter.data_next] at hx
    exact h3 hc x hx

theorem passedBwd_prev_ge {t : TestIter} (hwf : t.WFData) {k0 : Nat}
    (hcur : t.current = some k0) : ∀ x ∈ t.prev.passedBwd, k0 ≤ x := by
  obtain ⟨h1, h2, h3⟩ := prev_after_current_facts t hwf hcur
  intro x hx
  cases hc : t.prev.cursor with
  | some c =>
    rw [TestIter.passedBwd_of_cursor_some hc, TestIter.data_prev] at hx
    exact h2 c hc x hx
  | none =>
    rw [TestIter.passedBwd_of_cursor_none hc, TestIter.data_prev] at hx
    exact h3 hc x hx

theorem passedFwd_seek_lt (t : TestIter) (b : Nat) :
    ∀ x ∈ (t.seek b).passedFwd, x < b := by
  obtain ⟨h1, h2, h3⟩ := TestIter.seek_facts t b
  intro x hx
  cases hc : (t.seek b).cursor with
  | some c =>
    rw [TestIter.passedFwd_of_cursor_some hc, TestIter.data_seek] at hx
    exact h2 c hc x hx
  | none =>
    rw [TestIter.passedFwd_of_cursor_none hc, TestIter.data_seek] at hx
    exact h3 hc x hx

theorem passedBwd_seekBefore_ge (t : TestIter) (hwf : t.WFData) (b : Nat) :
    ∀ x ∈ (t.seekBefore b).passedBwd, b ≤ x := by
  obtain ⟨h1, h2, h3⟩ := TestIter.seekBefore_facts t hwf b
  intro x hx
  cases hc : (t.seekBefore b).cursor with
  | some c =>
    rw [TestIter.passedBwd_of_cursor_some hc, TestIter.data_seekBefore] at hx
    exact h2 c hc x hx
  | none =>
    rw [TestIter.passedBwd_of_cursor_none hc, TestIter.data_seekBefore] at hx
    exact h3 hc x hx

theorem passedFwd_catchUp_le (t : TestIter) (hwf : t.WFData) (b : Nat) :
    ∀ x ∈ (MergingIter.catchUpForwards b t).passedFwd, x ≤ b := by
  obtain ⟨h1, h2, h3⟩ := catchUpForwards_facts t hwf b
  intro x hx
  cases hc : (MergingIter.catchUpForwards b t).cursor with
  | some c =>
    rw [TestIter.passedFwd_of_cursor_some hc, data_catchUpForwards] at hx
    exact h2 c hc x hx
  | none =>
    rw [TestIter.passedFwd_of_cursor_none hc, data_catchUpForwards] at hx
    exact h3 hc x hx

/-- A freshly restarted iterator (`next` from the invalid position) has passed
nothing. -/
theorem passedFwd_next_of_none {t : TestIter} (h : t.cursor = none) :
    t.next.passedFwd = [] := by
  simp only [TestIter.next, h]
  by_cases hl : 0 < t.data.length
  · rw [if_pos hl]
    rw [TestIter.passedFwd_of_cursor_some rfl]
    exact List.take_zero _
  · rw [if_neg hl]
    rw [TestIter.passedFwd_of_cursor_none rfl]
    show t.data = []
    exact List.eq_nil_of_length_eq_zero (by omega)

/-- Mirror of `passedFwd_next_of_none` for `prev`. -/
theorem passedBwd_prev_of_none {t : TestIter} (h : t.cursor = none) :
    t.prev.passedBwd = [] := by
  simp only [TestIter.prev, h]
  by_cases hl : t.data.length = 0
  · rw [if_pos hl]
    rw [TestIter.passedBwd_of_cursor_none rfl]
    show t.data = []
    exact List.eq_nil_of_length_eq_zero hl
  · rw [if_neg hl]
    rw [TestIter.passedBwd_of_cursor_some rfl]
    show t.data.drop (t.data.length - 1 + 1) = []
    apply List.drop_eq_nil_of_le
    omega

theorem passedFwd_seekToFirst (t : TestIter) : t.seekToFirst.passedFwd = [] :=
  passedFwd_next_of_none (TestIter.cursor_reset t)

theorem passedBwd_seekToLast (t : TestIter) : t.seekToLast.passedBwd = [] :=
  passedBwd_prev_of_none (TestIter.cursor_reset t)

theorem current_catchUp_ge (t : TestIter) (hwf : t.WFData) (b : Nat) :
    ∀ ki, (MergingIter.catchUpForwards b t).current = some ki → b ≤ ki :=
  (catchUpForwards_facts t hwf b).1


/-! ### Bounds and well-formedness preservation on component lists -/

theorem cursorsInBounds_map (f : TestIter → TestIter) (l : List TestIter)
    (hf : ∀ t ∈ l, ∀ c, (f t).cursor = some c → c < (f t).data.length) :
    cursorsInBounds (l.map f) := by
  intro t ht c hc
  obtain ⟨t0, ht0, rfl⟩ := List.mem_map.1 ht
  exact hf t0 ht0 c hc

theorem cursorsInBounds_modifyAt (f : TestIter → TestIter) (j : Nat)
    (l : List TestIter) (hl : cursorsInBounds l)
    (hf : ∀ t ∈ l, ∀ c, (f t).cursor = some c → c < (f t).data.length) :
    cursorsInBounds (modifyAt f j l) := by
  intro t ht c hc
  rcases mem_modifyAt_elim f j l t ht with ⟨t0, hget0, rfl⟩ | ht2
  · exact hf t0 (List.getElem?_mem hget0) c hc
  · exact hl t ht2 c hc

theorem cursorsInBounds_mapOthers (f : TestIter → TestIter) (j : Nat)
    (l : List TestIter) (hl : cursorsInBounds l)
    (hf : ∀ t ∈ l, ∀ c, (f t).cursor = some c → c < (f t).data.length) :
    cursorsInBounds (mapOthers f j l) := by
  intro t ht c hc
  rcases mem_mapOthers_elim f j l t ht with hget | ⟨t0, ht0, rfl⟩
  · exact hl t (List.getElem?_mem hget) c hc
  · exact hf t0 ht0 c hc

theorem wfData_map (f : TestIter → TestIter) (hf : ∀ t, (f t).data = t.data)
    (l : List TestIter) (hwf : ∀ t ∈ l, t.WFData) :
    ∀ t ∈ l.map f, t.WFData := by
  intro t ht
  obtain ⟨t0, ht0, rfl⟩ := List.mem_map.1 ht
  show (f t0).data.Sorted (· < ·)
  rw [hf t0]
  exact hwf t0 ht0

theorem wfData_modifyAt (f : TestIter → TestIter) (hf : ∀ t, (f t).data = t.data)
    (j : Nat) (l : List TestIter) (hwf : ∀ t ∈ l, t.WFData) :
    ∀ t ∈ modifyAt f j l, t.WFData := by
  intro t ht
  rcases mem_modifyAt_elim f j l t ht with ⟨t0, hget0, rfl⟩ | ht2
  · show (f t0).data.Sorted (· < ·)
    rw [hf t0]
    exact hwf t0 (List.getElem?_mem hget0)
  · exact hwf t ht2

theorem wfData_mapOthers (f : TestIter → TestIter) (hf : ∀ t, (f t).data = t.data)
    (j : Nat) (l : List TestIter) (hwf : ∀ t ∈ l, t.WFData) :
    ∀ t ∈ mapOthers f j l, t.WFData := by
  intro t ht
  rcases mem_mapOthers_elim f j l t ht with hget | ⟨t0, ht0, rfl⟩
  · exact hwf t (List.getElem?_mem hget)
  · show (f t0).data.Sorted (· < ·)
    rw [hf t0]
    exact hwf t0 ht0

/-! ### The direction switches -/

/-- Complete description of `switch_to_forwards` from a state whose selected
component `j` is valid at `k0`: the other components are caught up to strictly
after `k0` (data, bounds and well-formedness preserved), every passed entry of
the new state is `≤ k0` and every current entry is `≥ k0`. -/
theorem switchToForwards_spec (its : List TestIter) (j : Nat) (dir : Direction)
    (tj : TestIter) (k0 : Nat)
    (hwf : ∀ t ∈ its, t.WFData) (hbound : cursorsInBounds its)
    (hgetj : its[j]? = some tj) (hcurj : tj.current = some k0) :
    ∃ its2,
      (MergingIter.mk its (some j) dir).switchToForwards j
        = MergingIter.mk its2 (some j) .Forwards
      ∧ its2[j]? = some tj
      ∧ its2.map TestIter.data = its.map TestIter.data
      ∧ cursorsInBounds its2
      ∧ (∀ t ∈ its2, t.WFData)
      ∧ (∀ t ∈ its2, ∀ x ∈ t.passedFwd, x ≤ k0)
      ∧ (∀ t ∈ its2, ∀ ki, t.current = some ki → k0 ≤ ki) := by
  have hmemj : tj ∈ its := List.getElem?_mem hgetj
  refine ⟨mapOthers (MergingIter.catchUpForwards k0) j its, ?_, ?_, ?_, ?_, ?_, ?_, ?_⟩
  · have hs : (some tj).bind (fun a => a.current) = some k0 := by
      simp [hcurj]
    simp only [MergingIter.switchToForwards, hgetj, hs]
  · rw [getElem?_mapOthers, if_pos rfl]
    exact hgetj
  · exact map_data_mapOthers _ (fun t => data_catchUpForwards k0 t) j its
  · refine cursorsInBounds_mapOthers _ j its hbound fun t ht c hc => ?_
    have h2 := catchUpForwards_cursor_bound t k0 c hc
    rw [data_catchUpForwards]
    exact h2
  · exact wfData_mapOthers _ (fun t => data_catchUpForwards k0 t) j its hwf
  · intro t ht
    rcases mem_mapOthers_elim _ j its t ht with hget | ⟨t0, ht0, rfl⟩
    · rw [hgetj] at hget
      injection hget with hget
      subst hget
      exact passedFwd_le_current (hwf tj hmemj) hcurj
    · exact passedFwd_catchUp_le t0 (hwf t0 ht0) k0
  · intro t ht
    rcases mem_mapOthers_elim _ j its t ht with hget | ⟨t0, ht0, rfl⟩
    · rw [hgetj] at hget
      injection hget with hget
      subst hget
      intro ki hki
      rw [hcurj] at hki
      injection hki with hki
      omega
    · exact current_catchUp_ge t0 (hwf t0 ht0) k0

/-- Mirror of `switchToForwards_spec` for `switch_to_backwards`. -/
theorem switchToBackwards_spec (its : List TestIter) (j : Nat) (dir : Direction)
    (tj : TestIter) (k0 : Nat)
    (hwf : ∀ t ∈ its, t.WFData) (hbound : cursorsInBounds its)
    (hgetj : its[j]? = some tj) (hcurj : tj.current = some k0) :
    ∃ its2,
      (MergingIter.mk its (some j) dir).switchToBackwards j
        = MergingIter.mk its2 (some j) .Backwards
      ∧ its2[j]? = some tj
      ∧ its2.map TestIter.data = its.map TestIter.data
      ∧ cursorsInBounds its2
      ∧ (∀ t ∈ its2, t.WFData)
      ∧ (∀ t ∈ its2, ∀ x ∈ t.passedBwd, k0 ≤ x)
      ∧ (∀ t ∈ its2, ∀ ki, t.current = some ki → ki ≤ k0) := by
  have hmemj : tj ∈ its := List.getElem?_mem hgetj
  refine ⟨mapOthers (fun t => t.seekBefore k0) j its, ?_, ?_, ?_, ?_, ?_, ?_, ?_⟩
  · have hs : (some tj).bind (fun a => a.current) = some k0 := by
      simp [hcurj]
    simp only [MergingIter.switchToBackwards, hgetj, hs]
  · rw [getElem?_mapOthers, if_pos rfl]
    exact hgetj
  · exact map_data_mapOthers _ (fun t => TestIter.data_seekBefore t k0) j its
  · refine cursorsInBounds_mapOthers _ j its hbound fun t ht c hc => ?_
    have h2 := TestIter.seekBefore_cursor_bound t k0 c hc
    rw [TestIter.data_seekBefore]
    exact h2
  · exact wfData_mapOthers _ (fun t => TestIter.data_seekBefore t k0) j its hwf
  · intro t ht
    rcases mem_mapOthers_elim _ j its t ht with hget | ⟨t0, ht0, rfl⟩
    · rw [hgetj] at hget
      injection hget with hget
      subst hget
      exact passedBwd_ge_current (hwf tj hmemj) hcurj
    · exact passedBwd_seekBefore_ge t0 (hwf t0 ht0) k0
  · intro t ht
    rcases mem_mapOthers_elim _ j its t ht with hget | ⟨t0, ht0, rfl⟩
    · rw [hgetj] at hget
      injection hget with hget
      subst hget
      intro ki hki
      rw [hcurj] at hki
      injection hki with hki
      omega
    · intro ki hki
      exact le_of_lt ((TestIter.seekBefore_facts t0 (hwf t0 ht0) k0).1 ki hki)

/-- `next()` from a `Backwards` state first performs the direction switch:
it agrees with `next()` of the switched state. -/
theorem next_backwards_eq (its : List TestIter) (j : Nat) :
    (MergingIter.mk its (some j) .Backwards).next
      = ((MergingIter.mk its (some j) .Backwards).switchToForwards j).next := by
  cases hsc : (its[j]?).bind TestIter.current with
  | none =>
    simp only [MergingIter.next, MergingIter.switchToForwards, hsc]
  | some k0 =>
    simp only [MergingIter.next, MergingIter.switchToForwards, hsc]

/-- Mirror of `next_backwards_eq`: `prev()` from a `Forwards` state agrees
with `prev()` of the switched state. -/
theorem prev_forwards_eq (its : List TestIter) (j : Nat) :
    (MergingIter.mk its (some j) .Forwards).prev
      = ((MergingIter.mk its (some j) .Forwards).switchToBackwards j).prev := by
  cases hsc : (its[j]?).bind TestIter.current with
  | none =>
    simp only [MergingIter.prev, MergingIter.switchToBackwards, hsc]
  | some k0 =>
    simp only [MergingIter.prev, MergingIter.switchToBackwards, hsc]


/-- In the `Backwards` direction, `prev()` retreats (only the current
component, or all of them from the invalid state), rescans for the largest,
and yields the new current entry. -/
theorem prev_backwards (m : MergingIter) (hdir : m.direction = .Backwards) :
    (m.prev).1
      = (scanBest (· > ·) (enumFrom 0 m.advancedBwd).reverse none).map Prod.snd
    ∧ (m.prev).2 = MergingIter.mk m.advancedBwd
        ((scanBest (· > ·) (enumFrom 0 m.advancedBwd).reverse none).map Prod.fst)
        .Backwards := by
  obtain ⟨its, ci, dir⟩ := m
  cases dir with
  | Forwards => exact absurd hdir (by simp)
  | Backwards =>
    cases ci with
    | some j =>
      exact ⟨current_findLargestIter
        (MergingIter.mk (modifyAt TestIter.prev j its) (some j) .Backwards), rfl⟩
    | none =>
      exact ⟨current_findLargestIter
        (MergingIter.mk (its.map TestIter.prev) none .Backwards), rfl⟩

/-- `next()` from a state with no selected component restarts every component
and rescans, regardless of the stored direction. -/
theorem next_invalid_shape (its : List TestIter) (dir : Direction) :
    ((MergingIter.mk its none dir).next).1
      = (scanBest (· < ·) (enumFrom 0 (its.map TestIter.next)) none).map Prod.snd
    ∧ ((MergingIter.mk its none dir).next).2
      = MergingIter.mk (its.map TestIter.next)
          ((scanBest (· < ·) (enumFrom 0 (its.map TestIter.next)) none).map Prod.fst)
          .Forwards := by
  exact ⟨current_findSmallestIter (MergingIter.mk (its.map TestIter.next) none dir), rfl⟩

/-- Mirror of `next_invalid_shape` for `prev()`. -/
theorem prev_invalid_shape (its : List TestIter) (dir : Direction) :
    ((MergingIter.mk its none dir).prev).1
      = (scanBest (· > ·) (enumFrom 0 (its.map TestIter.prev)).reverse none).map Prod.snd
    ∧ ((MergingIter.mk its none dir).prev).2
      = MergingIter.mk (its.map TestIter.prev)
          ((scanBest (· > ·) (enumFrom 0 (its.map TestIter.prev)).reverse none).map Prod.fst)
          .Backwards := by
  exact ⟨current_findLargestIter (MergingIter.mk (its.map TestIter.prev) none dir), rfl⟩


/-! ### The forward step: invariant preservation and the no-skip interval -/

/-- Complete description of one `next()` from a `Forwards` state positioned at
`k0` (per the invariant facts): the result is again well-formed and invariant;
when it yields nothing every merged entry is `≤ k0`; when it yields `k2` then
`k0 ≤ k2` and no merged entry lies strictly between `k0` and `k2`. -/
theorem next_step_spec (its : List TestIter) (j : Nat) (tj : TestIter) (k0 : Nat)
    (hwf : ∀ t ∈ its, t.WFData) (hbound : cursorsInBounds its)
    (hgetj : its[j]? = some tj) (hcurj : tj.current = some k0)
    (hpass : ∀ t ∈ its, ∀ x ∈ t.passedFwd, x ≤ k0)
    (hcurs : ∀ t ∈ its, ∀ ki, t.current = some ki → k0 ≤ ki) :
    (((MergingIter.mk its (some j) .Forwards).next).2).Good
    ∧ (((MergingIter.mk its (some j) .Forwards).next).2).iterators.map TestIter.data
        = its.map TestIter.data
    ∧ (((MergingIter.mk its (some j) .Forwards).next).1 = none →
        ∀ x ∈ (its.map TestIter.data).flatten, x ≤ k0)
    ∧ (∀ k2, ((MergingIter.mk its (some j) .Forwards).next).1 = some k2 →
        k0 ≤ k2 ∧ ∀ x ∈ (its.map TestIter.data).flatten, ¬(k0 < x ∧ x < k2)) := by
  obtain ⟨hn1, hn2, hn3⟩ := next_after_current_facts tj (hwf tj (List.getElem?_mem hgetj)) hcurj
  have hshape := next_forwards (MergingIter.mk its (some j) .Forwards) rfl
  have hadv : (MergingIter.mk its (some j) .Forwards).advanced
      = modifyAt TestIter.next j its := rfl
  rw [hadv] at hshape
  have hbound2 : cursorsInBounds (modifyAt TestIter.next j its) := by
    refine cursorsInBounds_modifyAt _ j its hbound fun t ht c hc => ?_
    exact TestIter.next_cursor_bound t c hc
  have hwf2 : ∀ t ∈ modifyAt TestIter.next j its, t.WFData :=
    wfData_modifyAt TestIter.next (fun t => rfl) j its hwf
  have hdata2 : (modifyAt TestIter.next j its).map TestIter.data
      = its.map TestIter.data := map_data_modifyAt TestIter.next (fun t => rfl) j its
  have hpass2 : ∀ t ∈ modifyAt TestIter.next j its, ∀ x ∈ t.passedFwd, x ≤ k0 := by
    intro t ht
    rcases mem_modifyAt_elim _ j its t ht with ⟨t0, hget0, rfl⟩ | ht2
    · rw [hgetj] at hget0
      injection hget0 with hget0
      subst hget0
      exact passedFwd_next_le (hwf tj (List.getElem?_mem hgetj)) hcurj
    · exact hpass t ht2
  have hcurs2 : ∀ t ∈ modifyAt TestIter.next j its, ∀ ki, t.current = some ki → k0 ≤ ki := by
    intro t ht
    rcases mem_modifyAt_elim _ j its t ht with ⟨t0, hget0, rfl⟩ | ht2
    · rw [hgetj] at hget0
      injection hget0 with hget0
      subst hget0
      exact hn1
    · exact hcurs t ht2
  refine ⟨?_, ?_, ?_, ?_⟩
  · rw [hshape.2]
    refine ⟨hwf2, ?_⟩
    refine inv_scanS _ hbound2 ?_
    intro t ht x hx t2 ht2 ki hki
    exact le_trans (hpass2 t ht x hx) (hcurs2 t2 ht2 ki hki)
  · rw [hshape.2]
    exact hdata2
  · intro hnone
    rw [hshape.1, Option.map_eq_none'] at hnone
    have hcn : ∀ t ∈ modifyAt TestIter.next j its, t.cursor = none :=
      cursors_none_of_currents_none hbound2 ((scanSmallest_eq_none_iff _).1 hnone)
    intro x hx
    rw [← hdata2] at hx
    obtain ⟨d, hd, hxd⟩ := List.mem_flatten.1 hx
    obtain ⟨t, ht, rfl⟩ := List.mem_map.1 hd
    have hxp : x ∈ t.passedFwd := by
      rw [TestIter.passedFwd_of_cursor_none (hcn t ht)]
      exact hxd
    exact hpass2 t ht x hxp
  · intro k2 hk2
    rw [hshape.1, Option.map_eq_some'] at hk2
    obtain ⟨⟨j2, k2x⟩, hscan, hsnd⟩ := hk2
    obtain rfl : k2x = k2 := hsnd
    obtain ⟨⟨tj2, hgetj2, hcurj2⟩, hmin⟩ := scanSmallest_eq_some_spec hscan
    have hk0k2 := hcurs2 tj2 (List.getElem?_mem hgetj2) _ hcurj2
    refine ⟨hk0k2, ?_⟩
    rintro x hx ⟨hgt, hlt⟩
    rw [← hdata2] at hx
    obtain ⟨d, hd, hxd⟩ := List.mem_flatten.1 hx
    obtain ⟨t, ht, rfl⟩ := List.mem_map.1 hd
    cases hc : t.cursor with
    | none =>
      have hxp : x ∈ t.passedFwd := by
        rw [TestIter.passedFwd_of_cursor_none hc]
        exact hxd
      have := hpass2 t ht x hxp
      omega
    | some c =>
      have hltc := hbound2 t ht c hc
      rcases sorted_mem_take_or_ge (hwf2 t ht) hltc hxd with htk | hge
      · have hxp : x ∈ t.passedFwd := by
          rw [TestIter.passedFwd_of_cursor_some hc]
          exact htk
        have := hpass2 t ht x hxp
        omega
      · obtain ⟨i, hi, rfl⟩ := List.getElem_of_mem ht
        have hcurt := TestIter.current_isSome_of_bound hc hltc
        have := (hmin i _ _ (List.getElem?_eq_getElem hi) hcurt).1
        omega


/-- Mirror of `next_step_spec` for one `prev()` from a `Backwards` state. -/
theorem prev_step_spec (its : List TestIter) (j : Nat) (tj : TestIter) (k0 : Nat)
    (hwf : ∀ t ∈ its, t.WFData) (hbound : cursorsInBounds its)
    (hgetj : its[j]? = some tj) (hcurj : tj.current = some k0)
    (hpass : ∀ t ∈ its, ∀ x ∈ t.passedBwd, k0 ≤ x)
    (hcurs : ∀ t ∈ its, ∀ ki, t.current = some ki → ki ≤ k0) :
    (((MergingIter.mk its (some j) .Backwards).prev).2).Good
    ∧ (((MergingIter.mk its (some j) .Backwards).prev).2).iterators.map TestIter.data
        = its.map TestIter.data
    ∧ (((MergingIter.mk its (some j) .Backwards).prev).1 = none →
        ∀ x ∈ (its.map TestIter.data).flatten, k0 ≤ x)
    ∧ (∀ k2, ((MergingIter.mk its (some j) .Backwards).prev).1 = some k2 →
        k2 ≤ k0 ∧ ∀ x ∈ (its.map TestIter.data).flatten, ¬(k2 < x ∧ x < k0)) := by
  obtain ⟨hn1, hn2, hn3⟩ := prev_after_current_facts tj (hwf tj (List.getElem?_mem hgetj)) hcurj
  have hshape := prev_backwards (MergingIter.mk its (some j) .Backwards) rfl
  have hadv : (MergingIter.mk its (some j) .Backwards).advancedBwd
      = modifyAt TestIter.prev j its := rfl
  rw [hadv] at hshape
  have hbound2 : cursorsInBounds (modifyAt TestIter.prev j its) := by
    refine cursorsInBounds_modifyAt _ j its hbound fun t ht c hc => ?_
    exact TestIter.prev_cursor_bound t (fun ci hci => hbound t ht ci hci) c hc
  have hwf2 : ∀ t ∈ modifyAt TestIter.prev j its, t.WFData :=
    wfData_modifyAt TestIter.prev (fun t => rfl) j its hwf
  have hdata2 : (modifyAt TestIter.prev j its).map TestIter.data
      = its.map TestIter.data := map_data_modifyAt TestIter.prev (fun t => rfl) j its
  have hpass2 : ∀ t ∈ modifyAt TestIter.prev j its, ∀ x ∈ t.passedBwd, k0 ≤ x := by
    intro t ht
    rcases mem_modifyAt_elim _ j its t ht with ⟨t0, hget0, rfl⟩ | ht2
    · rw [hgetj] at hget0
      injection hget0 with hget0
      subst hget0
      exact passedBwd_prev_ge (hwf tj (List.getElem?_mem hgetj)) hcurj
    · exact hpass t ht2
  have hcurs2 : ∀ t ∈ modifyAt TestIter.prev j its, ∀ ki, t.current = some ki → ki ≤ k0 := by
    intro t ht
    rcases mem_modifyAt_elim _ j its t ht with ⟨t0, hget0, rfl⟩ | ht2
    · rw [hgetj] at hget0
      injection hget0 with hget0
      subst hget0
      exact hn1
    · exact hcurs t ht2
  refine ⟨?_, ?_, ?_, ?_⟩
  · rw [hshape.2]
    refine ⟨hwf2, ?_⟩
    refine inv_scanL _ hbound2 ?_
    intro t ht x hx t2 ht2 ki hki
    exact le_trans (hcurs2 t2 ht2 ki hki) (hpass2 t ht x hx)
  · rw [hshape.2]
    exact hdata2
  · intro hnone
    rw [hshape.1, Option.map_eq_none'] at hnone
    have hcn : ∀ t ∈ modifyAt TestIter.prev j its, t.cursor = none :=
      cursors_none_of_currents_none hbound2 ((scanLargest_eq_none_iff _).1 hnone)
    intro x hx
    rw [← hdata2] at hx
    obtain ⟨d, hd, hxd⟩ := List.mem_flatten.1 hx
    obtain ⟨t, ht, rfl⟩ := List.mem_map.1 hd
    have hxp : x ∈ t.passedBwd := by
      rw [TestIter.passedBwd_of_cursor_none (hcn t ht)]
      exact hxd
    exact hpass2 t ht x hxp
  · intro k2 hk2
    rw [hshape.1, Option.map_eq_some'] at hk2
    obtain ⟨⟨j2, k2x⟩, hscan, hsnd⟩ := hk2
    obtain rfl : k2x = k2 := hsnd
    obtain ⟨⟨tj2, hgetj2, hcurj2⟩, hmax⟩ := scanLargest_eq_some_spec hscan
    have hk0k2 := hcurs2 tj2 (List.getElem?_mem hgetj2) _ hcurj2
    refine ⟨hk0k2, ?_⟩
    rintro x hx ⟨hgt, hlt⟩
    rw [← hdata2] at hx
    obtain ⟨d, hd, hxd⟩ := List.mem_flatten.1 hx
    obtain ⟨t, ht, rfl⟩ := List.mem_map.1 hd
    cases hc : t.cursor with
    | none =>
      have hxp : x ∈ t.passedBwd := by
        rw [TestIter.passedBwd_of_cursor_none hc]
        exact hxd
      have := hpass2 t ht x hxp
      omega
    | some c =>
      have hltc := hbound2 t ht c hc
      rcases sorted_mem_drop_or_le (hwf2 t ht) hltc hxd with htk | hge
      · have hxp : x ∈ t.passedBwd := by
          rw [TestIter.passedBwd_of_cursor_some hc]
          exact htk
        have := hpass2 t ht x hxp
        omega
      · obtain ⟨i, hi, rfl⟩ := List.getElem_of_mem ht
        have hcurt := TestIter.current_isSome_of_bound hc hltc
        have := (hmax i _ _ (List.getElem?_eq_getElem hi) hcurt).1
        omega


/-! ### Invariant preservation of the remaining operations -/

theorem next_invalid_good (its : List TestIter) (dir : Direction)
    (hwf : ∀ t ∈ its, t.WFData) (hnone : ∀ t ∈ its, t.cursor = none) :
    (((MergingIter.mk its none dir).next).2).Good := by
  rw [(next_invalid_shape its dir).2]
  refine ⟨wfData_map TestIter.next (fun t => rfl) its hwf, ?_⟩
  refine inv_scanS _ (cursorsInBounds_map _ its fun t ht c hc =>
    TestIter.next_cursor_bound t c hc) ?_
  intro t ht x hx
  obtain ⟨t0, ht0, rfl⟩ := List.mem_map.1 ht
  rw [passedFwd_next_of_none (hnone t0 ht0)] at hx
  cases hx

theorem prev_invalid_good (its : List TestIter) (dir : Direction)
    (hwf : ∀ t ∈ its, t.WFData) (hbound : cursorsInBounds its)
    (hnone : ∀ t ∈ its, t.cursor = none) :
    (((MergingIter.mk its none dir).prev).2).Good := by
  rw [(prev_invalid_shape its dir).2]
  refine ⟨wfData_map TestIter.prev (fun t => rfl) its hwf, ?_⟩
  refine inv_scanL _ (cursorsInBounds_map _ its fun t ht c hc =>
    TestIter.prev_cursor_bound t (fun ci hci => hbound t ht ci hci) c hc) ?_
  intro t ht x hx
  obtain ⟨t0, ht0, rfl⟩ := List.mem_map.1 ht
  rw [passedBwd_prev_of_none (hnone t0 ht0)] at hx
  cases hx

theorem seek_good (m : MergingIter) (hwf : ∀ t ∈ m.iterators, t.WFData) (b : Nat) :
    (m.seek b).Good := by
  show (MergingIter.mk (m.iterators.map fun t => t.seek b)
    ((scanBest (· < ·) (enumFrom 0 (m.iterators.map fun t => t.seek b)) none).map
      Prod.fst) .Forwards).Good
  refine ⟨wfData_map (fun t => t.seek b) (fun t => rfl) m.iterators hwf, ?_⟩
  refine inv_scanS _ (cursorsInBounds_map _ m.iterators fun t ht c hc =>
    TestIter.seek_cursor_bound t b c hc) ?_
  intro t ht x hx t2 ht2 ki hki
  obtain ⟨t0, ht0, rfl⟩ := List.mem_map.1 ht
  obtain ⟨t1, ht1, rfl⟩ := List.mem_map.1 ht2
  exact le_trans (le_of_lt (passedFwd_seek_lt t0 b x hx))
    ((TestIter.seek_facts t1 b).1 ki hki)

theorem seekBefore_good (m : MergingIter) (hwf : ∀ t ∈ m.iterators, t.WFData)
    (b : Nat) : (m.seekBefore b).Good := by
  show (MergingIter.mk (m.iterators.map fun t => t.seekBefore b)
    ((scanBest (· > ·) (enumFrom 0 (m.iterators.map fun t => t.seekBefore b)).reverse
      none).map Prod.fst) .Backwards).Good
  refine ⟨wfData_map (fun t => t.seekBefore b) (fun t => rfl) m.iterators hwf, ?_⟩
  refine inv_scanL _ (cursorsInBounds_map _ m.iterators fun t ht c hc =>
    TestIter.seekBefore_cursor_bound t b c hc) ?_
  intro t ht x hx t2 ht2 ki hki
  obtain ⟨t0, ht0, rfl⟩ := List.mem_map.1 ht
  obtain ⟨t1, ht1, rfl⟩ := List.mem_map.1 ht2
  exact le_trans (le_of_lt ((TestIter.seekBefore_facts t1 (hwf t1 ht1) b).1 ki hki))
    (passedBwd_seekBefore_ge t0 (hwf t0 ht0) b x hx)

theorem seekToFirst_good (m : MergingIter) (hwf : ∀ t ∈ m.iterators, t.WFData) :
    m.seekToFirst.Good := by
  show (MergingIter.mk (m.iterators.map TestIter.seekToFirst)
    ((scanBest (· < ·) (enumFrom 0 (m.iterators.map TestIter.seekToFirst)) none).map
      Prod.fst) .Forwards).Good
  refine ⟨wfData_map TestIter.seekToFirst (fun t => rfl) m.iterators hwf, ?_⟩
  refine inv_scanS _ (cursorsInBounds_map _ m.iterators fun t ht c hc =>
    TestIter.next_cursor_bound t.reset c hc) ?_
  intro t ht x hx
  obtain ⟨t0, ht0, rfl⟩ := List.mem_map.1 ht
  rw [passedFwd_seekToFirst t0] at hx
  cases hx

theorem seekToLast_good (m : MergingIter) (hwf : ∀ t ∈ m.iterators, t.WFData) :
    m.seekToLast.Good := by
  show (MergingIter.mk (m.iterators.map TestIter.seekToLast)
    ((scanBest (· > ·) (enumFrom 0 (m.iterators.map TestIter.seekToLast)).reverse
      none).map Prod.fst) .Backwards).Good
  refine ⟨wfData_map TestIter.seekToLast (fun t => rfl) m.iterators hwf, ?_⟩
  refine inv_scanL _ (cursorsInBounds_map _ m.iterators fun t ht c hc => ?_) ?_
  · refine TestIter.prev_cursor_bound t.reset ?_ c hc
    intro ci hci
    rw [TestIter.cursor_reset] at hci
    cases hci
  · intro t ht x hx
    obtain ⟨t0, ht0, rfl⟩ := List.mem_map.1 ht
    rw [passedBwd_seekToLast t0] at hx
    cases hx

theorem reset_good (m : MergingIter) (hwf : ∀ t ∈ m.iterators, t.WFData) :
    m.reset.Good := by
  refine ⟨wfData_map TestIter.reset (fun t => rfl) m.iterators hwf, ?_, ?_⟩
  · intro t ht ci hci
    obtain ⟨t0, ht0, rfl⟩ := List.mem_map.1 ht
    rw [TestIter.cursor_reset] at hci
    cases hci
  · show ∀ t ∈ m.iterators.map TestIter.reset, t.cursor = none
    intro t ht
    obtain ⟨t0, ht0, rfl⟩ := List.mem_map.1 ht
    exact TestIter.cursor_reset t0

/-- The structural invariant (with well-formed data) is preserved by every
public mutating operation. -/
theorem good_applyOp (op : MOp) (m : MergingIter) (hg : m.Good) :
    (m.applyOp op).Good := by
  obtain ⟨its, ci, dir⟩ := m
  obtain ⟨hwf, hinv⟩ := hg
  cases op with
  | opReset => exact reset_good _ hwf
  | opSeek k => exact seek_good _ hwf k
  | opSeekBefore k => exact seekBefore_good _ hwf k
  | opSeekToFirst => exact seekToFirst_good _ hwf
  | opSeekToLast => exact seekToLast_good _ hwf
  | opNext =>
    show (((MergingIter.mk its ci dir).next).2).Good
    cases ci with
    | none =>
      obtain ⟨hbound, hnone⟩ := hinv
      exact next_invalid_good its dir hwf hnone
    | some j =>
      obtain ⟨hbound, tj, k0, hgetj, hcurj, hcl⟩ := hinv
      cases dir with
      | Forwards =>
        exact (next_step_spec its j tj k0 hwf hbound hgetj hcurj
          (fun t ht => (hcl t ht).2) (fun t ht => (hcl t ht).1)).1
      | Backwards =>
        rw [next_backwards_eq its j]
        obtain ⟨its2, heq, hgetj2, hdata2, hbound2, hwf2, hpass2, hcurs2⟩ :=
          switchToForwards_spec its j .Backwards tj k0 hwf hbound hgetj hcurj
        rw [heq]
        exact (next_step_spec its2 j tj k0 hwf2 hbound2 hgetj2 hcurj
          hpass2 hcurs2).1
  | opPrev =>
    show (((MergingIter.mk its ci dir).prev).2).Good
    cases ci with
    | none =>
      obtain ⟨hbound, hnone⟩ := hinv
      exact prev_invalid_good its dir hwf hbound hnone
    | some j =>
      obtain ⟨hbound, tj, k0, hgetj, hcurj, hcl⟩ := hinv
      cases dir with
      | Backwards =>
        exact (prev_step_spec its j tj k0 hwf hbound hgetj hcurj
          (fun t ht => (hcl t ht).2) (fun t ht => (hcl t ht).1)).1
      | Forwards =>
        rw [prev_forwards_eq its j]
        obtain ⟨its2, heq, hgetj2, hdata2, hbound2, hwf2, hpass2, hcurs2⟩ :=
          switchToBackwards_spec its j .Forwards tj k0 hwf hbound hgetj hcurj
        rw [heq]
        exact (prev_step_spec its2 j tj k0 hwf2 hbound2 hgetj2 hcurj
          hpass2 hcurs2).1

/-- Every state reachable from a fresh merging iterator over strictly sorted
component data is well-formed and satisfies the structural invariant. -/
theorem reach_good {datas : List (List Nat)} {m : MergingIter}
    (hreach : Reach datas m) (hsorted : ∀ d ∈ datas, d.Sorted (· < ·)) :
    m.Good := by
  induction hreach with
  | init =>
    refine ⟨?_, ?_, ?_⟩
    · intro t ht
      obtain ⟨d, hd, rfl⟩ := List.mem_map.1 ht
      exact hsorted d hd
    · intro t ht ci hci
      obtain ⟨d, hd, rfl⟩ := List.mem_map.1 ht
      cases hci
    · show ∀ t ∈ (initMerging datas).iterators, t.cursor = none
      intro t ht
      obtain ⟨d, hd, rfl⟩ := List.mem_map.1 ht
      rfl
  | step op hm ih => exact good_applyOp op _ ih


/-- The claimed `current_iter` contract follows from the internal invariant. -/
theorem structInv_of_good (m : MergingIter) (hg : m.Good) : m.StructInv := by
  obtain ⟨its, ci, dir⟩ := m
  obtain ⟨hwf, hbound, hinv⟩ := hg
  cases ci with
  | none =>
    refine ⟨⟨fun _ t ht => ?_, fun _ => rfl⟩, fun j hj => Option.noConfusion hj⟩
    show t.cursor.isSome = false
    rw [hinv t ht]
    rfl
  | some j =>
    obtain ⟨tj, k0, hgetj, hcurj, hcl⟩ := hinv
    obtain ⟨c, hc, hlt, hk⟩ := TestIter.current_some_elim hcurj
    refine ⟨⟨fun h => Option.noConfusion h, fun hall => ?_⟩, fun j2 hj2 => ?_⟩
    · exfalso
      have h2 := hall tj (List.getElem?_mem hgetj)
      rw [show tj.valid = tj.cursor.isSome from rfl, hc] at h2
      cases h2
    · injection hj2 with hj2
      subst hj2
      refine ⟨tj, k0, hgetj, ?_, hcurj, ?_⟩
      · rw [show tj.valid = tj.cursor.isSome from rfl, hc]
        rfl
      · intro t ht ki hki
        cases dir with
        | Forwards => exact (hcl t ht).1 ki hki
        | Backwards => exact (hcl t ht).1 ki hki


/-! ### C7: the structural state invariant -/

/-- **C7**: in every state reachable through the public operations from a
freshly constructed merging iterator over strictly sorted component data,
`current_iter` is `None` exactly when every component iterator is invalid, and
when it is `Some j` the component `j` is valid and every valid component's
current key lies non-strictly on the far side of component `j`'s key in the
direction of travel (`≥` when `Forwards`, `≤` when `Backwards`). -/
theorem mergingIter_state_invariant (datas : List (List Nat)) (m : MergingIter)
    (hsorted : ∀ d ∈ datas, d.Sorted (· < ·)) (hreach : Reach datas m) :
    m.StructInv :=
  structInv_of_good m (reach_good hreach hsorted)

theorem mergingIter_state_invariant_witness :
    ((initMerging [[1, 2], [2, 3]]).applyOp MOp.opSeekToFirst).StructInv := by
  refine mergingIter_state_invariant [[1, 2], [2, 3]] _ ?_
    (Reach.step MOp.opSeekToFirst Reach.init)
  intro d hd
  rcases List.mem_cons.1 hd with rfl | hd
  · exact (by decide : List.Sorted (· < ·) [1, 2])
  rcases List.mem_cons.1 hd with rfl | hd
  · exact (by decide : List.Sorted (· < ·) [2, 3])
  cases hd


/-! ### C4: no distinct key is ever skipped -/

/-- **C4**: from any reachable state of a merging iterator over strictly
sorted (duplicate-free) component data that is positioned at key `k0`, one
step of traversal never skips a key distinct from the keys it stands on:
`next()` either reports exhaustion with every merged entry `≤ k0`, or yields
some `k2 ≥ k0` such that no merged entry lies strictly between `k0` and `k2`
(so only further instances of the boundary keys themselves can be passed
over, exactly the duplicate-key allowance at a direction switch); `prev()`
satisfies the mirror property.  This covers the direction-switch cases, since
`next`/`prev` from a state travelling the other way perform the switch
internally. -/
theorem merging_no_skip (datas : List (List Nat)) (m : MergingIter)
    (hsorted : ∀ d ∈ datas, d.Sorted (· < ·)) (hreach : Reach datas m)
    (k0 : Nat) (hcur : m.current = some k0) :
    ((m.next).1 = none → ∀ x ∈ m.allKeys, x ≤ k0)
    ∧ (∀ k2, (m.next).1 = some k2 → k0 ≤ k2 ∧ ∀ x ∈ m.allKeys, ¬(k0 < x ∧ x < k2))
    ∧ ((m.prev).1 = none → ∀ x ∈ m.allKeys, k0 ≤ x)
    ∧ (∀ k2, (m.prev).1 = some k2 → k2 ≤ k0 ∧ ∀ x ∈ m.allKeys, ¬(k2 < x ∧ x < k0)) := by
  have hg := reach_good hreach hsorted
  obtain ⟨its, ci, dir⟩ := m
  obtain ⟨hwf, hbound, hinv⟩ := hg
  cases ci with
  | none =>
    exfalso
    simp [MergingIter.current] at hcur
  | some j =>
    obtain ⟨tj, k0', hgetj, hcurj, hcl⟩ := hinv
    have hcur2 : tj.current = some k0 := by
      simpa [MergingIter.current, hgetj] using hcur
    rw [hcurj] at hcur2
    injection hcur2 with hcur2
    subst hcur2
    have hall : (MergingIter.mk its (some j) dir).allKeys
        = (its.map TestIter.data).flatten := rfl
    cases dir with
    | Forwards =>
      obtain ⟨-, -, hnnone, hnsome⟩ := next_step_spec its j tj _ hwf hbound
        hgetj hcurj (fun t ht => (hcl t ht).2) (fun t ht => (hcl t ht).1)
      obtain ⟨its2, heq, hgetj2, hdata2, hbound2, hwf2, hpass2, hcurs2⟩ :=
        switchToBackwards_spec its j .Forwards tj _ hwf hbound hgetj hcurj
      obtain ⟨-, -, hpnone, hpsome⟩ := prev_step_spec its2 j tj _ hwf2 hbound2
        hgetj2 hcurj hpass2 hcurs2
      rw [hall]
      refine ⟨hnnone, hnsome, ?_, ?_⟩
      · rw [prev_forwards_eq its j, heq]
        rw [← hdata2]
        exact hpnone
      · rw [prev_forwards_eq its j, heq]
        rw [← hdata2]
        exact hpsome
    | Backwards =>
      obtain ⟨-, -, hpnone, hpsome⟩ := prev_step_spec its j tj _ hwf hbound
        hgetj hcurj (fun t ht => (hcl t ht).2) (fun t ht => (hcl t ht).1)
      obtain ⟨its2, heq, hgetj2, hdata2, hbound2, hwf2, hpass2, hcurs2⟩ :=
        switchToForwards_spec its j .Backwards tj _ hwf hbound hgetj hcurj
      obtain ⟨-, -, hnnone, hnsome⟩ := next_step_spec its2 j tj _ hwf2 hbound2
        hgetj2 hcurj hpass2 hcurs2
      rw [hall]
      refine ⟨?_, ?_, hpnone, hpsome⟩
      · rw [next_backwards_eq its j, heq]
        rw [← hdata2]
        exact hnnone
      · rw [next_backwards_eq its j, heq]
        rw [← hdata2]
        exact hnsome


theorem merging_no_skip_witness :
    ((((initMerging [[1, 3], [2]]).applyOp MOp.opSeekToFirst).next).1 = none →
        ∀ x ∈ ((initMerging [[1, 3], [2]]).applyOp MOp.opSeekToFirst).allKeys, x ≤ 1)
    ∧ (∀ k2, (((initMerging [[1, 3], [2]]).applyOp MOp.opSeekToFirst).next).1 = some k2 →
        1 ≤ k2 ∧ ∀ x ∈ ((initMerging [[1, 3], [2]]).applyOp MOp.opSeekToFirst).allKeys,
          ¬(1 < x ∧ x < k2))
    ∧ ((((initMerging [[1, 3], [2]]).applyOp MOp.opSeekToFirst).prev).1 = none →
        ∀ x ∈ ((initMerging [[1, 3], [2]]).applyOp MOp.opSeekToFirst).allKeys, 1 ≤ x)
    ∧ (∀ k2, (((initMerging [[1, 3], [2]]).applyOp MOp.opSeekToFirst).prev).1 = some k2 →
        k2 ≤ 1 ∧ ∀ x ∈ ((initMerging [[1, 3], [2]]).applyOp MOp.opSeekToFirst).allKeys,
          ¬(k2 < x ∧ x < 1)) := by
  refine merging_no_skip [[1, 3], [2]] _ ?_ (Reach.step MOp.opSeekToFirst Reach.init) 1 ?_
  · intro d hd
    rcases List.mem_cons.1 hd with rfl | hd
    · exact (by decide : List.Sorted (· < ·) [1, 3])
    rcases List.mem_cons.1 hd with rfl | hd
    · exact (by decide : List.Sorted (· < ·) [2])
    cases hd
  · decide

end SeekableIter
